import Mathlib

/-!
Verification of the constant-folding core of the f18 Fortran front end
(src/lib/evaluate/fold.cc, expression.h/.cc, shape.h), via a shallow
embedding of the expression algebra and of the folder.

The embedding covers the fragment of the `Expr` algebra exercised by the
checked properties: constants, whole-symbol designators, character
substring designators, parentheses, negation, addition, multiplication,
extrema, integer kind conversions, implied-DO indices, array constructors
with implied DOs, and integer intrinsic function references
(the bitwise-shift dispatch group and `size`).  Machine integers are
modelled as mathematical integers wrapped to the kind's two's-complement
range.  Code that lives outside the given sources (the fixed-point
integer library, the character comparison, `Substring::Fold`,
`CheckConformance`, and the shape-materialization helpers of shape.cc)
is modelled from the specification and marked as such.

The folder itself can abort through `common::die` / failed `CHECK`
assertions, and it re-folds expressions it has just built, so it is not
structurally recursive; it is embedded as a fuel-indexed function
`foldF` whose result distinguishes normal completion, a fatal abort
(`die`), and fuel exhaustion (`out`).  Fuel exhaustion is an artifact of
the embedding; `foldF_mono` shows results are stable once fuel suffices,
and the relation `FoldsTo` abstracts the fuel away.
-/

namespace F18

/-- One diagnostic message, as formatted text. -/
abbrev Msg := String

/-- The five intrinsic type categories (common/Fortran.h `TypeCategory`);
the fragment carries the four that appear in the claims. -/
inductive TyCat where
  | int
  | real
  | char
  | log
deriving DecidableEq, Repr

/-- `DynamicType`: a category paired with a kind (type.h). -/
structure DynType where
  cat : TyCat
  kind : Nat
deriving DecidableEq, Repr

/-- Bit width of an integer kind (kind counts bytes). -/
def bits (kind : Nat) : Nat := 8 * kind

/-- Wrap a mathematical integer to the two's-complement value range of a
kind.  Modelled from the spec: the fixed-point library (§4.1) is a black
box whose arithmetic wraps modulo 2^width. -/
def wrap (kind : Nat) (v : Int) : Int :=
  (v + 2 ^ (bits kind - 1)) % 2 ^ bits kind - 2 ^ (bits kind - 1)

/-- Is `v` representable in the two's-complement range of `kind`? -/
def inRange (kind : Nat) (v : Int) : Prop :=
  -(2 ^ (bits kind - 1)) ≤ v ∧ v < 2 ^ (bits kind - 1)

instance (kind : Nat) (v : Int) : Decidable (inRange kind v) := by
  unfold inRange; infer_instance

/-- `{value, overflow}` result of the fixed-point operations
(integer.h's `ValueWithOverflow`, modelled from the spec). -/
structure ValueWithOverflow where
  value : Int
  overflow : Bool
deriving DecidableEq, Repr

/-- `AddSigned`: two's-complement addition with overflow flag.
Modelled from the spec (§4.1). -/
def addSigned (kind : Nat) (a b : Int) : ValueWithOverflow :=
  { value := wrap kind (a + b), overflow := decide (¬ inRange kind (a + b)) }

/-- `MultiplySigned` (overflow when the true product does not fit).
Modelled from the spec (§4.1). -/
def mulSigned (kind : Nat) (a b : Int) : ValueWithOverflow :=
  { value := wrap kind (a * b), overflow := decide (¬ inRange kind (a * b)) }

/-- `Negate` on the fixed-point type.  Modelled from the spec (§4.1). -/
def negSigned (kind : Nat) (a : Int) : ValueWithOverflow :=
  { value := wrap kind (-a), overflow := decide (¬ inRange kind (-a)) }

/-- `ConvertSigned`: integer-to-integer kind conversion with overflow
flag.  Modelled from the spec (§4.1, §4.3). -/
def convertSigned (toKind : Nat) (v : Int) : ValueWithOverflow :=
  { value := wrap toKind v, overflow := decide (¬ inRange toKind v) }

/-- `CompareSigned`: three-way integer comparison (integer.h, modelled
from the spec). -/
def cmpInt (a b : Int) : Ordering :=
  if a < b then .lt else if a = b then .eq else .gt

/-- The unsigned (bit-pattern) reading of a signed value. -/
def toU (kind : Nat) (v : Int) : Nat := (v % 2 ^ bits kind).toNat

/-- Reinterpret a bit pattern as a signed value of the kind. -/
def fromU (kind : Nat) (u : Nat) : Int := wrap kind u

/-- `ISHFT`: logical shift, left for positive counts, right for negative
ones.  Modelled from the spec (§4.1). -/
def ishftS (kind : Nat) (v : Int) (n : Int) : Int :=
  if 0 ≤ n then fromU kind (toU kind v <<< n.toNat)
  else fromU kind (toU kind v >>> (-n).toNat)

/-- `SHIFTL`: logical left shift.  Modelled from the spec (§4.1). -/
def shiftlS (kind : Nat) (v : Int) (n : Int) : Int :=
  fromU kind (toU kind v <<< n.toNat)

/-- `SHIFTR`: logical right shift.  Modelled from the spec (§4.1). -/
def shiftrS (kind : Nat) (v : Int) (n : Int) : Int :=
  fromU kind (toU kind v >>> n.toNat)

/-- `SHIFTA`: arithmetic right shift (sign fill), i.e. floor division by
a power of two.  Modelled from the spec (§4.1). -/
def shiftaS (kind : Nat) (v : Int) (n : Int) : Int :=
  wrap kind (Int.fdiv v (2 ^ n.toNat))

/-- `IBCLR`: clear one bit.  Modelled from the spec (§4.1). -/
def ibclrS (kind : Nat) (v : Int) (pos : Int) : Int :=
  let u := toU kind v
  fromU kind (if u.testBit pos.toNat then u - 2 ^ pos.toNat else u)

/-- `IBSET`: set one bit.  Modelled from the spec (§4.1). -/
def ibsetS (kind : Nat) (v : Int) (pos : Int) : Int :=
  let u := toU kind v
  fromU kind (if u.testBit pos.toNat then u else u + 2 ^ pos.toNat)

/-- A software floating-point scalar.  The soft-float library is a black
box (§6); the fragment models it as either a NaN or an abstract finite
value, which is all the folder's `Extremum` logic observes. -/
inductive RealV where
  | nan
  | fin (v : Int)
deriving DecidableEq, Repr

/-- The four-valued result of `Real::Compare` (§4.1). -/
inductive Relation where
  | less
  | equal
  | greater
  | unordered
deriving DecidableEq, Repr

/-- `IsNotANumber` on the real scalar. -/
def RealV.isNaN : RealV → Bool
  | .nan => true
  | .fin _ => false

/-- `Compare` on real scalars: `Unordered` when either operand is a NaN,
the value ordering otherwise.  Modelled from the spec (§4.1). -/
def realCompare : RealV → RealV → Relation
  | .nan, _ => .unordered
  | _, .nan => .unordered
  | .fin a, .fin b =>
      if a < b then .less else if a = b then .equal else .greater

/-- `Negate` on real scalars ("no exceptions possible"). -/
def RealV.neg : RealV → RealV
  | .nan => .nan
  | .fin v => .fin (-v)

/-- Exact addition on the abstract finite reals, NaN-propagating. -/
def realAdd : RealV → RealV → RealV
  | .nan, _ => .nan
  | _, .nan => .nan
  | .fin a, .fin b => .fin (a + b)

/-- Exact multiplication on the abstract finite reals, NaN-propagating. -/
def realMul : RealV → RealV → RealV
  | .nan, _ => .nan
  | _, .nan => .nan
  | .fin a, .fin b => .fin (a * b)

/-- Three-way lexical comparison of character scalars.  Modelled from
the spec (§4.1: "three-way lexical comparison"); the character library
is not among the given sources. -/
def charCompare : List Nat → List Nat → Ordering
  | [], [] => .eq
  | [], _ :: _ => .lt
  | _ :: _, [] => .gt
  | a :: as, b :: bs =>
      if a < b then .lt else if b < a then .gt else charCompare as bs

/-- A scalar value of some intrinsic type (`Scalar<T>`). -/
inductive Scal where
  | int (kind : Nat) (v : Int)
  | real (kind : Nat) (x : RealV)
  | char (kind : Nat) (s : List Nat)
  | log (kind : Nat) (b : Bool)
deriving DecidableEq, Repr

/-- `Constant<T>`: a dynamic type, the elements in Fortran array element
order, and the shape (constant.h; scalars have an empty shape and one
element). -/
structure ConstantV where
  ty : DynType
  elems : List Scal
  shape : List Int
deriving DecidableEq, Repr

/-- The base of a substring designator: a symbol or a static data
object (variable.h `Substring`). -/
inductive SubBase where
  | dataObj (name : String)
  | staticData (s : List Nat)
deriving DecidableEq, Repr

mutual
/-- The embedded fragment of the `Expr<T>` family (expression.h), with
dynamic types in place of the C++ template parameters.  `Operation`
nodes own their operands; trees, not DAGs. -/
inductive Expr where
  /-- a `Constant<T>` leaf -/
  | const (c : ConstantV)
  /-- a `Designator<T>` naming a whole symbol, with its static type and
  rank -/
  | sym (name : String) (ty : DynType) (rank : Nat)
  /-- a character `Designator<T>` holding a `Substring` -/
  | substr (base : SubBase) (kind : Nat) (lower upper : Expr)
  /-- `Parentheses<T>` -/
  | paren (e : Expr)
  /-- `Negate<T>` -/
  | neg (e : Expr)
  /-- `Add<T>` -/
  | add (a b : Expr)
  /-- `Multiply<T>` -/
  | mul (a b : Expr)
  /-- `Extremum<T>` with its `Ordering` (`.lt` is MIN, `.gt` is MAX) -/
  | extremum (ord : Ordering) (a b : Expr)
  /-- `Convert<Type<Integer,kind>, Integer>` -/
  | conv (kind : Nat) (e : Expr)
  /-- `ImpliedDoIndex` -/
  | iDoIndex (name : String)
  /-- `ArrayConstructor<T>` (the non-character, non-derived shape:
  no length expression) -/
  | arrayCtor (ty : DynType) (vals : List ACValue)
  /-- `FunctionRef<Type<Integer,kind>>` naming a specific intrinsic -/
  | funcRef (name : String) (kind : Nat) (args : List Expr)
/-- `ArrayConstructorValue<T>`: a plain expression or an `ImpliedDo<T>`. -/
inductive ACValue where
  | expr (e : Expr)
  | impliedDo (name : String) (lower upper stride : Expr) (body : List ACValue)
end

/-- `FoldingContext`: the fragment carries the implied-DO index map;
messages are threaded through fold results instead of a sink. -/
structure FoldingContext where
  impliedDos : List (String × Int) := []
deriving DecidableEq, Repr

/-- `FoldingContext::GetImpliedDo`. -/
def FoldingContext.getImpliedDo (ctx : FoldingContext) (name : String) :
    Option Int :=
  (ctx.impliedDos.find? (fun p => p.1 == name)).map (fun p => p.2)

/-- `FoldingContext::StartImpliedDo` (the balanced `EndImpliedDo` is the
return to the enclosing binding). -/
def FoldingContext.startImpliedDo (ctx : FoldingContext) (name : String)
    (v : Int) : FoldingContext :=
  ⟨(name, v) :: ctx.impliedDos⟩

/-- A scalar `Constant<SubscriptInteger>` expression (kind 8). -/
def i8const (n : Int) : Expr :=
  .const ⟨⟨.int, 8⟩, [.int 8 n], []⟩

/-- `ExpressionBase::GetType` restricted to the fragment, where every
node has a specific type (expression.cc). -/
def getType : Expr → DynType
  | .const c => c.ty
  | .sym _ ty _ => ty
  | .substr _ k _ _ => ⟨.char, k⟩
  | .paren e => getType e
  | .neg e => getType e
  | .add a _ => getType a
  | .mul a _ => getType a
  | .extremum _ a _ => getType a
  | .conv k _ => ⟨.int, k⟩
  | .iDoIndex _ => ⟨.int, 8⟩
  | .arrayCtor ty _ => ty
  | .funcRef _ k _ => ⟨.int, k⟩

/-- `ExpressionBase::Rank` (expression.cc; `Operation::Rank` is the
maximum of the operand ranks, constants report their shape's rank,
array constructors are rank 1).  Function references and substrings
are treated as scalar in the fragment (their `Rank` lives in
variable.h, which is not among the sources). -/
def rank : Expr → Nat
  | .const c => c.shape.length
  | .sym _ _ r => r
  | .substr _ _ _ _ => 0
  | .paren e => rank e
  | .neg e => rank e
  | .add a b => max (rank a) (rank b)
  | .mul a b => max (rank a) (rank b)
  | .extremum _ a b => max (rank a) (rank b)
  | .conv _ e => rank e
  | .iDoIndex _ => 0
  | .arrayCtor _ _ => 1
  | .funcRef _ _ _ => 0

/-- `GetScalarConstantValue<T>`: the scalar of a rank-0 `Constant<T>`
(with its type). -/
def scalarConst : Expr → Option (DynType × Scal)
  | .const ⟨ty, [v], []⟩ => some (ty, v)
  | _ => none

/-- `ToInt64` on an integer expression: defined exactly on scalar
integer constants (fold.cc lines 1812-1823). -/
def toInt64 : Expr → Option Int
  | .const ⟨_, [.int _ v], []⟩ => some v
  | _ => none

mutual
/-- `ContainsAnyImpliedDoIndex` (traversal.h visitor, used by
`GetShapeHelper::GetExtent`). -/
def containsIdoIndex : Expr → Bool
  | .const _ => false
  | .sym _ _ _ => false
  | .substr _ _ lo up => containsIdoIndex lo || containsIdoIndex up
  | .paren e => containsIdoIndex e
  | .neg e => containsIdoIndex e
  | .add a b => containsIdoIndex a || containsIdoIndex b
  | .mul a b => containsIdoIndex a || containsIdoIndex b
  | .extremum _ a b => containsIdoIndex a || containsIdoIndex b
  | .conv _ e => containsIdoIndex e
  | .iDoIndex _ => true
  | .arrayCtor _ vals => containsIdoIndexVals vals
  | .funcRef _ _ args => containsIdoIndexList args

def containsIdoIndexList : List Expr → Bool
  | [] => false
  | e :: es => containsIdoIndex e || containsIdoIndexList es

def containsIdoIndexVals : List ACValue → Bool
  | [] => false
  | v :: vs => containsIdoIndexVal v || containsIdoIndexVals vs

def containsIdoIndexVal : ACValue → Bool
  | .expr e => containsIdoIndex e
  | .impliedDo _ lo up st body =>
      containsIdoIndex lo || containsIdoIndex up || containsIdoIndex st ||
        containsIdoIndexVals body
end

mutual
/-- The `UnexpandabilityFindingVisitor` of fold.cc (lines 1222-1231):
does the expression contain a `FunctionRef` (the fragment has no
coarray references)?  `IsExpandableScalar` is its negation. -/
def containsFuncRef : Expr → Bool
  | .const _ => false
  | .sym _ _ _ => false
  | .substr _ _ lo up => containsFuncRef lo || containsFuncRef up
  | .paren e => containsFuncRef e
  | .neg e => containsFuncRef e
  | .add a b => containsFuncRef a || containsFuncRef b
  | .mul a b => containsFuncRef a || containsFuncRef b
  | .extremum _ a b => containsFuncRef a || containsFuncRef b
  | .conv _ e => containsFuncRef e
  | .iDoIndex _ => false
  | .arrayCtor _ vals => containsFuncRefVals vals
  | .funcRef _ _ _ => true

def containsFuncRefList : List Expr → Bool
  | [] => false
  | e :: es => containsFuncRef e || containsFuncRefList es

def containsFuncRefVals : List ACValue → Bool
  | [] => false
  | v :: vs => containsFuncRefVal v || containsFuncRefVals vs

def containsFuncRefVal : ACValue → Bool
  | .expr e => containsFuncRef e
  | .impliedDo _ lo up st body =>
      containsFuncRef lo || containsFuncRef up || containsFuncRef st ||
        containsFuncRefVals body
end

/-- `IsExpandableScalar` (fold.cc line 1229). -/
def isExpandableScalar (e : Expr) : Bool := ! containsFuncRef e

/-- Number of loop iterations of an implied DO with the given constant
lower bound, upper bound and nonzero stride (the loop of fold.cc lines
902-911): positive strides run while `j ≤ upper`, negative ones while
`j ≥ upper`. -/
def tripCount (start stop step : Int) : Nat :=
  if 0 < step then
    (if start ≤ stop then (stop - start).toNat / step.toNat + 1 else 0)
  else if step < 0 then
    (if stop ≤ start then (start - stop).toNat / (-step).toNat + 1 else 0)
  else 0

/-- The successive values of an implied-DO index. -/
def trips (start stop step : Int) : List Int :=
  (List.range (tripCount start stop step)).map
    (fun (i : Nat) => start + step * (i : Int))

/-- `CountTrips` of shape.cc as an extent expression,
`max(0, (upper-lower+stride)/stride)` per the spec (§4.6).  shape.cc is
not among the sources; the model computes the count only when all three
bounds are scalar constants. -/
def countTrips (lo up st : Expr) : Option Expr :=
  match toInt64 lo, toInt64 up, toInt64 st with
  | some a, some b, some s => some (i8const (tripCount a b s))
  | _, _, _ => none

/-- `GetSize` (shape.h): the product of a shape's extents as an extent
expression, `1 * e₁ * e₂ * ...`; `none` when an extent is unknown. -/
def getSize : List (Option Expr) → Option Expr :=
  go (i8const 1)
where
  go (acc : Expr) : List (Option Expr) → Option Expr
    | [] => some acc
    | some e :: rest => go (.mul acc e) rest
    | none :: _ => none

mutual
/-- `GetShapeHelper::GetShape` (shape.h).  A shape is a list of optional
extent expressions; `none` at the outside means the shape itself is
unknown.  Symbol and function-reference cases live in shape.cc /
variable.cc (not among the sources) and are modelled: array symbols have
unknown shape, scalars and function references yield the empty shape. -/
def getShape : Expr → Option (List (Option Expr))
  | .const c => some (c.shape.map (fun n => some (i8const n)))
  | .sym _ _ r => if r = 0 then some [] else none
  | .substr _ _ _ _ => some []
  | .paren e => getShape e
  | .neg e => getShape e
  | .conv _ e => getShape e
  | .add a b => if rank b > 0 then getShape b else getShape a
  | .mul a b => if rank b > 0 then getShape b else getShape a
  | .extremum _ a b => if rank b > 0 then getShape b else getShape a
  | .iDoIndex _ => some []
  | .arrayCtor _ vals => some [getExtentVals (i8const 0) vals]
  | .funcRef _ _ _ => some []

/-- `GetShapeHelper::GetExtent` over `ArrayConstructorValues`: the sum
`0 + n₁ + n₂ + ...` of the element extents, `none` as soon as one of
them is unknown. -/
def getExtentVals (acc : Expr) : List ACValue → Option Expr
  | [] => some acc
  | v :: vs =>
      match getExtentVal v with
      | some n => getExtentVals (.add acc n) vs
      | none => none

/-- `GetShapeHelper::GetExtent` of one `ArrayConstructorValue`: array
values are linearized (their size), implied DOs multiply the body extent
by the trip count, giving up on triangular nests. -/
def getExtentVal : ACValue → Option Expr
  | .expr e =>
      match getShape e with
      | some sh => getSize sh
      | none => none
  | .impliedDo _ lo up st body =>
      if containsIdoIndex lo || containsIdoIndex up || containsIdoIndex st then
        none
      else
        match getExtentVals (i8const 0) body, countTrips lo up st with
        | some n, some ct => some (.mul n ct)
        | _, _ => none
end

/-- `common::AllElementsPresent` on a shape. -/
def allPresent : List (Option Expr) → Option (List Expr)
  | [] => some []
  | some e :: rest => (allPresent rest).map (fun es => e :: es)
  | none :: _ => none

/-- The diagnostic `CheckConformance` emits (spec §8, scenario 5). -/
def conformabilityMsg : Msg := "shapes are not conformable"

/-- `CheckConformance` (declared in shape.h, defined in the absent
shape.cc; modelled from the spec §4.6): corresponding extents are
compared when both are known constants; a mismatch — including a rank
mismatch — emits a diagnostic and returns false. -/
def checkConformance (l r : List (Option Expr)) : Bool × List Msg :=
  if l.length = r.length then go l r else (false, [conformabilityMsg])
where
  go : List (Option Expr) → List (Option Expr) → Bool × List Msg
    | le :: ls, re :: rs =>
        match le.bind toInt64, re.bind toInt64 with
        | some a, some b =>
            if a = b then go ls rs else (false, [conformabilityMsg])
        | _, _ => go ls rs
    | _, _ => (true, [])

/-- Are all values of an array constructor plain expressions
(`ArrayConstructorIsFlat`, fold.cc lines 995-1003)?  Returns them. -/
def allExprVals : List ACValue → Option (List Expr)
  | [] => some []
  | .expr e :: vs => (allExprVals vs).map (fun es => e :: es)
  | .impliedDo _ _ _ _ _ :: _ => none

/-- `AsFlatArrayConstructor` (fold.cc lines 1005-1024): a constant is
materialized into one scalar-constant expression per element in array
element order, a flat array constructor contributes its elements, and
parentheses are looked through; anything else fails.  The model keeps
the element list of the resulting flat constructor. -/
def asFlat : Expr → Option (List Expr)
  | .const c => some (c.elems.map (fun s => .const ⟨c.ty, [s], []⟩))
  | .arrayCtor _ vals => allExprVals vals
  | .paren e => asFlat e
  | _ => none

/-- `TotalElementCount` of a constant shape. -/
def totalElementCount (shape : List Int) : Nat :=
  (shape.map Int.toNat).prod

/-- Element access in array element order. -/
def elemAt (c : ConstantV) (i : Nat) : Scal :=
  c.elems.getD i (.int 0 0)

/-- The diagnostic of fold.cc lines 216-217. -/
def elementalConformabilityMsg : Msg :=
  "arguments in elemental intrinsic function are not conformable"

/-- `FoldElementalIntrinsicHelper` (fold.cc lines 188-252) for a binary
scalar function: when both (already folded) arguments are constants,
their shapes are reconciled — two arrays of different shapes emit a
diagnostic and leave the reference unfolded, rank-0 arguments broadcast
— and the scalar function is applied elementwise to build a constant of
the common shape; otherwise the reference is returned unfolded. -/
def foldElemental2 (orig : Expr) (resTy : DynType) (f : Scal → Scal → Scal)
    (a1 a2 : Expr) : Expr × List Msg :=
  match a1, a2 with
  | .const c1, .const c2 =>
      if 0 < c1.shape.length ∧ 0 < c2.shape.length ∧ c1.shape ≠ c2.shape then
        (orig, [elementalConformabilityMsg])
      else
        let shape := if 0 < c1.shape.length then c1.shape else c2.shape
        let results := (List.range (totalElementCount shape)).map (fun i =>
          f (if 0 < c1.shape.length then elemAt c1 i else elemAt c1 0)
            (if 0 < c2.shape.length then elemAt c2 i else elemAt c2 0))
        (.const ⟨resTy, results, shape⟩, [])
  | _, _ => (orig, [])

/-- `ConvertToType<T>` applied to an `Expr<SubscriptInteger>` (tools.h,
not among the sources; modelled from its uses): the expression itself
when the target is the subscript-integer kind 8, a `Convert` node —
unfolded — otherwise. -/
def convertToType (kind : Nat) (e : Expr) : Expr :=
  if kind = 8 then e else .conv kind e

/-- Modelled from the spec: `Substring::Fold` (variable.cc is not among
the sources) extracts the substring only when the base is a static data
object and both bounds are scalar constants in range (an empty range
gives the empty string); a symbol base never folds. -/
def substringExtract (base : SubBase) (kind : Nat) (lo up : Expr) :
    Option ConstantV :=
  match base with
  | .dataObj _ => none
  | .staticData s =>
      match toInt64 lo, toInt64 up with
      | some l, some u =>
          if u < l then some ⟨⟨.char, kind⟩, [.char kind []], []⟩
          else if 1 ≤ l ∧ u ≤ (s.length : Int) then
            some ⟨⟨.char, kind⟩,
              [.char kind ((s.drop (l - 1).toNat).take (u - l + 1).toNat)], []⟩
          else none
      | _, _ => none

/-- Modelled from the spec: `Substring::LEN` (variable.cc is not among
the sources) is `MAX(0, upper - lower + 1)` as a subscript-integer
expression, built here from the fragment's operations. -/
def substringLEN (lo up : Expr) : Expr :=
  .extremum .gt (i8const 0) (.add (.add up (.neg lo)) (i8const 1))

/-- The scalar evaluation of `Extremum<T>` over two constants
(fold.cc lines 1617-1634): for Integer the first operand is returned
exactly when `CompareSigned` yields the operation's ordering; for Real
the first is returned when it is a NaN or when comparing `Less` agrees
with the ordering being `Less`; for Character the first is returned
when the comparison equals the ordering.  `none` on operands of
mismatched categories (unreachable from well-typed trees). -/
def scalarExtremum (ord : Ordering) : Scal → Scal → Option Scal
  | .int k x, .int k' y =>
      some (if cmpInt x y == ord then .int k x else .int k' y)
  | .real k x, .real k' y =>
      some (if x.isNaN || ((realCompare x y == .less) == (ord == .lt)) then
        .real k x else .real k' y)
  | .char k x, .char k' y =>
      some (if ord == charCompare x y then .char k x else .char k' y)
  | _, _ => none

/-- The names of fold.cc line 368-369: the guard of the bitwise-shift
dispatch group of the integer intrinsic folder. -/
def isShiftGroupName (name : String) : Bool :=
  name == "ibclr" || name == "ibset" || name == "ishft" ||
    name == "shifta" || name == "shiftr" || name == "shiftl"

/-- The function-pointer selection of fold.cc lines 379-393.  Note the
`"ibshft"` case: the guard `isShiftGroupName` admits `"ishft"`, which
this chain does not handle, so folding `ishft` falls through to
`common::die`; the `"ibshft"` alternative is dead code. -/
def pickShiftOp (name : String) : Option (Nat → Int → Int → Int) :=
  match name with
  | "ibclr" => some ibclrS
  | "ibset" => some ibsetS
  | "ibshft" => some ishftS
  | "shifta" => some shiftaS
  | "shiftr" => some shiftrS
  | "shiftl" => some shiftlS
  | _ => none

/-- The result of running the folder with a given amount of fuel:
normal completion with the rewritten expression (or auxiliary value)
and the diagnostics emitted, a fatal abort (`common::die` or a failed
`CHECK`), or fuel exhaustion (an artifact of the embedding). -/
inductive FRes (α : Type) where
  | done (a : α) (msgs : List Msg)
  | die
  | out
deriving Repr

instance {α : Type} [DecidableEq α] : DecidableEq (FRes α)
  | .done a m, .done b m' =>
      if h : a = b ∧ m = m' then .isTrue (by rw [h.1, h.2])
      else .isFalse (by intro hh; cases hh; exact h ⟨rfl, rfl⟩)
  | .done _ _, .die => .isFalse (by intro h; cases h)
  | .done _ _, .out => .isFalse (by intro h; cases h)
  | .die, .done _ _ => .isFalse (by intro h; cases h)
  | .die, .die => .isTrue rfl
  | .die, .out => .isFalse (by intro h; cases h)
  | .out, .done _ _ => .isFalse (by intro h; cases h)
  | .out, .die => .isFalse (by intro h; cases h)
  | .out, .out => .isTrue rfl

/-- Sequencing of fold steps; diagnostics accumulate in order. -/
def FRes.bind {α β : Type} : FRes α → (α → FRes β) → FRes β
  | .done a m, f =>
      match f a with
      | .done b m' => .done b (m ++ m')
      | .die => .die
      | .out => .out
  | .die, _ => .die
  | .out, _ => .out

/-- Emit diagnostics. -/
def FRes.emit (m : List Msg) : FRes Unit := .done () m

/-- Fuel approximation: a result at lower fuel is either fuel
exhaustion or already the final answer. -/
def FRes.le {α : Type} (x y : FRes α) : Prop := x = .out ∨ y = x

mutual
/-- The folder: `Fold` / `ExpressionBase::Rewrite` /  the per-variant
`FoldOperation` overloads of fold.cc, merged over the fragment's
variants, as a fuel-indexed rewrite.  Every case first folds the owned
operands, then attempts the elementwise lift where the source does,
then scalar constant evaluation, and otherwise returns the node with
folded operands. -/
def foldF : Nat → FoldingContext → Expr → FRes Expr
  | 0, _, _ => .out
  | _ + 1, _, .const c => .done (.const c) []
  | _ + 1, _, .sym name ty r => .done (.sym name ty r) []
  | _ + 1, ctx, .iDoIndex name =>
      -- fold.cc lines 829-836
      match ctx.getImpliedDo name with
      | some v => .done (i8const v) []
      | none => .done (.iDoIndex name) []
  | n + 1, ctx, .paren x =>
      -- fold.cc lines 1371-1380: no elementwise lift; parentheses are
      -- preserved, even around constants
      (foldF n ctx x).bind fun x' =>
        match scalarConst x' with
        | some (ty, v) => .done (.paren (.const ⟨ty, [v], []⟩)) []
        | none => .done (.paren x') []
  | n + 1, ctx, .neg x =>
      -- fold.cc lines 1382-1402
      (foldF n ctx x).bind fun x' =>
      (applyElem1 n ctx (getType x') (fun y => .neg y) x').bind fun
        | some res => .done res []
        | none =>
            match scalarConst x' with
            | some (_, .int k v) =>
                let r := negSigned k v
                .done (.const ⟨⟨.int, k⟩, [.int k r.value], []⟩)
                  (if r.overflow then [s!"INTEGER({k}) negation overflowed"]
                   else [])
            | some (_, .real k v) =>
                .done (.const ⟨⟨.real, k⟩, [.real k v.neg], []⟩) []
            | _ => .done (.neg x') []
  | n + 1, ctx, .add a b =>
      -- fold.cc lines 1462-1485
      (foldF n ctx a).bind fun a' =>
      (foldF n ctx b).bind fun b' =>
      (applyElem2 n ctx (getType a') (fun x y => .add x y) a' b').bind fun
        | some res => .done res []
        | none =>
            match scalarConst a', scalarConst b' with
            | some (_, .int k x), some (_, .int _ y) =>
                let s := addSigned k x y
                .done (.const ⟨⟨.int, k⟩, [.int k s.value], []⟩)
                  (if s.overflow then [s!"INTEGER({k}) addition overflowed"]
                   else [])
            | some (_, .real k x), some (_, .real _ y) =>
                .done (.const ⟨⟨.real, k⟩, [.real k (realAdd x y)], []⟩) []
            | _, _ => .done (.add a' b') []
  | n + 1, ctx, .mul a b =>
      -- fold.cc lines 1513-1536
      (foldF n ctx a).bind fun a' =>
      (foldF n ctx b).bind fun b' =>
      (applyElem2 n ctx (getType a') (fun x y => .mul x y) a' b').bind fun
        | some res => .done res []
        | none =>
            match scalarConst a', scalarConst b' with
            | some (_, .int k x), some (_, .int _ y) =>
                let s := mulSigned k x y
                .done (.const ⟨⟨.int, k⟩, [.int k s.value], []⟩)
                  (if s.overflow then
                    [s!"INTEGER({k}) multiplication overflowed"]
                   else [])
            | some (_, .real k x), some (_, .real _ y) =>
                .done (.const ⟨⟨.real, k⟩, [.real k (realMul x y)], []⟩) []
            | _, _ => .done (.mul a' b') []
  | n + 1, ctx, .extremum ord a b =>
      -- fold.cc lines 1612-1636; the elementwise lift goes through the
      -- generic binary ApplyElementwise (lines 1270-1279), which rebuilds
      -- `DERIVED{left, right}` and hence Extremum with its default
      -- ordering (Greater), dropping `x.ordering`
      (foldF n ctx a).bind fun a' =>
      (foldF n ctx b).bind fun b' =>
      (applyElem2 n ctx (getType a') (fun x y => .extremum .gt x y)
          a' b').bind fun
        | some res => .done res []
        | none =>
            match scalarConst a', scalarConst b' with
            | some (ty, va), some (_, vb) =>
                match scalarExtremum ord va vb with
                | some w => .done (.const ⟨ty, [w], []⟩) []
                | none => .done (.extremum ord a' b') []
            | _, _ => .done (.extremum ord a' b') []
  | n + 1, ctx, .conv k x =>
      -- fold.cc lines 1301-1369, integer-to-integer instance
      (foldF n ctx x).bind fun x' =>
      (applyElem1 n ctx ⟨.int, k⟩ (fun y => .conv k y) x').bind fun
        | some res => .done res []
        | none =>
            match scalarConst x' with
            | some (_, .int k' v) =>
                let c := convertSigned k v
                let ks := k'
                .done (.const ⟨⟨.int, k⟩, [.int k c.value], []⟩)
                  (if c.overflow then
                    [s!"INTEGER({ks}) to INTEGER({k}) conversion overflowed"]
                   else [])
            | _ => .done (.conv k x') []
  | n + 1, ctx, .substr base kind lo up =>
      -- fold.cc lines 801-825, FoldOperation(Designator<T>) for a
      -- character substring
      (foldF n ctx lo).bind fun lo' =>
      (foldF n ctx up).bind fun up' =>
        match substringExtract base kind lo' up' with
        | some c => .done (.const c) []
        | none =>
            (foldF n ctx (substringLEN lo' up')).bind fun len' =>
              if toInt64 len' == some 0 then
                .done (.const ⟨⟨.char, kind⟩, [.char kind []], []⟩) []
              else .done (.substr base kind lo' up') []
  | n + 1, ctx, .arrayCtor ty vals =>
      -- fold.cc lines 838-939, ArrayConstructorFolder: a successful walk
      -- yields a rank-1 constant; a failed one returns the ORIGINAL
      -- constructor (the walk folds copies of the subtrees)
      (walkVals n ctx vals).bind fun
        | some elems =>
            .done (.const ⟨ty, elems, [(elems.length : Int)]⟩) []
        | none => .done (.arrayCtor ty vals) []
  | n + 1, ctx, .funcRef name k args =>
      -- fold.cc lines 286-529, FoldOperation(FunctionRef<Integer,KIND>):
      -- all arguments are folded first, then the dispatch on the
      -- intrinsic's name; the fragment embeds the bitwise-shift group
      -- and `size`, every other name falls through to the unfolded
      -- return (the source folds further names)
      (foldList n ctx args).bind fun args' =>
        if isShiftGroupName name then
          match args' with
          | [x, nArg] =>
              -- narrow the count argument to Int4 (fold.cc 370-378)
              (if (getType nArg).cat == .int && (getType nArg).kind ≠ 4 then
                foldF n ctx (.conv 4 nArg)
               else .done nArg []).bind fun nArg' =>
                match pickShiftOp name with
                | some op =>
                    let f : Scal → Scal → Scal := fun i pos =>
                      match i, pos with
                      | .int _ v, .int _ p => .int k (op k v p)
                      | _, _ => .int k 0
                    let rm := foldElemental2 (.funcRef name k [x, nArg'])
                      ⟨.int, k⟩ f x nArg'
                    .done rm.1 rm.2
                | none => .die
          | _ => .done (.funcRef name k args') []
        else if name == "size" then
          match args' with
          | [a] =>
              -- DIM= absent (fold.cc 509-517): PRODUCT(SHAPE()); the
              -- product is folded but the conversion wrapped around it
              -- is not (line 516)
              match getShape a with
              | some shape =>
                  match allPresent shape with
                  | some exts =>
                      let product :=
                        exts.foldl (fun p e => .mul p e) (i8const 1)
                      (foldF n ctx product).bind fun p' =>
                        .done (convertToType k p') []
                  | none => .done (.funcRef name k args') []
              | none => .done (.funcRef name k args') []
          | [a, dimE] =>
              -- DIM= present (fold.cc 494-508)
              match getShape a with
              | some shape =>
                  match toInt64 dimE with
                  | some d =>
                      if 1 ≤ d ∧ d ≤ (shape.length : Int) then
                        match shape.get? (d - 1).toNat with
                        | some (some ext) =>
                            (foldF n ctx (convertToType k ext)).bind fun r =>
                              .done r []
                        | _ => .done (.funcRef name k args') []
                      else
                        .done (.funcRef name k args')
                          [s!"size(array,dim={d}) dimension is out of range for rank-{shape.length} array"]
                  | none => .done (.funcRef name k args') []
              | none => .done (.funcRef name k args') []
          | _ => .done (.funcRef name k args') []
        else .done (.funcRef name k args') []

/-- Fold a list of expressions left to right (the argument loop of
fold.cc lines 291-295 and the element pushes of `MapOperation`). -/
def foldList : Nat → FoldingContext → List Expr → FRes (List Expr)
  | 0, _, _ => .out
  | _ + 1, _, [] => .done [] []
  | n + 1, ctx, e :: es =>
      (foldF n ctx e).bind fun e' =>
      (foldList n ctx es).bind fun es' => .done (e' :: es') []

/-- The element loop of the array*array `MapOperation` (fold.cc lines
1098-1136): driven by the left operand's elements, folding `f x y` for
corresponding elements; `CHECK(rightIter != rightArrConst.end())` dies
when the right operand runs out first, and trailing right elements are
ignored. -/
def zipMapF : Nat → FoldingContext → (Expr → Expr → Expr) → List Expr →
    List Expr → FRes (List Expr)
  | 0, _, _, _, _ => .out
  | _ + 1, _, _, [], _ => .done [] []
  | _ + 1, _, _, _ :: _, [] => .die
  | n + 1, ctx, f, x :: xs, y :: ys =>
      (foldF n ctx (f x y)).bind fun p =>
      (zipMapF n ctx f xs ys).bind fun ps => .done (p :: ps) []

/-- `ArrayConstructorFolder::FoldArray` over `ArrayConstructorValues`
(fold.cc lines 921-928): stops at the first value that fails. -/
def walkVals : Nat → FoldingContext → List ACValue →
    FRes (Option (List Scal))
  | 0, _, _ => .out
  | _ + 1, _, [] => .done (some []) []
  | n + 1, ctx, v :: vs =>
      (walkVal n ctx v).bind fun
        | some xs =>
            (walkVals n ctx vs).bind fun
              | some ys => .done (some (xs ++ ys)) []
              | none => .done none []
        | none => .done none []

/-- `ArrayConstructorFolder::FoldArray` of one value (fold.cc lines
863-917): a plain expression is folded and must come out a constant,
whose elements are linearized in array element order; an implied DO
folds its bounds, fails on non-constant bounds or a zero stride, and
otherwise unrolls. -/
def walkVal : Nat → FoldingContext → ACValue → FRes (Option (List Scal))
  | 0, _, _ => .out
  | n + 1, ctx, .expr e =>
      (foldF n ctx e).bind fun e' =>
        match e' with
        | .const c => .done (some c.elems) []
        | _ => .done none []
  | n + 1, ctx, .impliedDo name lo up st body =>
      (foldF n ctx lo).bind fun lo' =>
      (foldF n ctx up).bind fun up' =>
      (foldF n ctx st).bind fun st' =>
        match toInt64 lo', toInt64 up', toInt64 st' with
        | some a, some b, some s =>
            if s = 0 then .done none []
            else walkIter n ctx name (trips a b s) body
        | _, _, _ => .done none []

/-- The unrolling loop of an implied DO (fold.cc lines 902-911): the
index is bound around each body walk, and `result &= FoldArray(...)`
keeps iterating — and keeps emitting diagnostics — after a failure. -/
def walkIter : Nat → FoldingContext → String → List Int → List ACValue →
    FRes (Option (List Scal))
  | 0, _, _, _, _ => .out
  | _ + 1, _, _, [], _ => .done (some []) []
  | n + 1, ctx, name, j :: js, body =>
      (walkVals n (ctx.startImpliedDo name j) body).bind fun r1 =>
      (walkIter n ctx name js body).bind fun r2 =>
        .done (match r1, r2 with
          | some xs, some ys => some (xs ++ ys)
          | _, _ => none) []

/-- `FromArrayConstructor` (fold.cc lines 1044-1060): wrap the mapped
elements into an array constructor, fold it, and when a constant shape
was supplied either reshape the constant result or `CHECK` that the
non-constant result already has that shape (a failed CHECK aborts). -/
def fromArrayCtor : Nat → FoldingContext → DynType → List Expr →
    Option (List Int) → FRes Expr
  | 0, _, _, _, _ => .out
  | n + 1, ctx, ty, elems, shapeOpt =>
      (foldF n ctx (.arrayCtor ty (elems.map .expr))).bind fun res =>
        match shapeOpt with
        | none => .done res []
        | some shp =>
            match res with
            | .const c => .done (.const ⟨c.ty, c.elems, shp⟩) []
            | _ =>
                match getShape res with
                | none => .die
                | some rs =>
                    (asConstExtentsF n rs).bind fun
                      | none => .die
                      | some ext =>
                          if ext = shp then .done res [] else .die

/-- `AsConstantExtents` on a shape (shape.cc, not among the sources;
modelled from the spec §4.4 "the constant is reshaped to the supplied
shape"): every extent must be present and fold — in a fresh context,
discarding diagnostics — to a scalar integer constant. -/
def asConstExtentsF : Nat → List (Option Expr) → FRes (Option (List Int))
  | 0, _ => .out
  | _ + 1, [] => .done (some []) []
  | n + 1, some e :: rest =>
      match foldF n ⟨[]⟩ e with
      | .done e' _ =>
          match toInt64 e' with
          | some v =>
              (asConstExtentsF n rest).bind fun
                | some vs => .done (some (v :: vs)) []
                | none => .done none []
          | none => .done none []
      | .die => .die
      | .out => .out
  | _ + 1, none :: _ => .done none []

/-- The unary `ApplyElementwise` (fold.cc lines 1191-1206) after the
operand has been folded: ranked operands with a known shape that
flatten to a flat array constructor are mapped elementwise. -/
def applyElem1 : Nat → FoldingContext → DynType → (Expr → Expr) → Expr →
    FRes (Option Expr)
  | 0, _, _, _, _ => .out
  | n + 1, ctx, ty, f, x' =>
      if 0 < rank x' then
        match getShape x' with
        | some shp =>
            match asFlat x' with
            | some xs =>
                (foldList n ctx (xs.map f)).bind fun pushed =>
                (asConstExtentsF n shp).bind fun extOpt =>
                (fromArrayCtor n ctx ty pushed extOpt).bind fun res =>
                  .done (some res) []
            | none => .done none []
        | none => .done none []
      else .done none []

/-- The binary `ApplyElementwise` (fold.cc lines 1233-1268) after both
operands have been folded.  For array/array operands `CheckConformance`
is invoked for its diagnostic but its verdict is IGNORED (line 1248) and
the mapping proceeds; scalar operands are expanded only when
`IsExpandableScalar` holds. -/
def applyElem2 : Nat → FoldingContext → DynType → (Expr → Expr → Expr) →
    Expr → Expr → FRes (Option Expr)
  | 0, _, _, _, _, _ => .out
  | n + 1, ctx, ty, f, l', r' =>
      if 0 < rank l' then
        match getShape l' with
        | some lshape =>
            match asFlat l' with
            | some ls =>
                if 0 < rank r' then
                  match getShape r' with
                  | some rshape =>
                      match asFlat r' with
                      | some rs =>
                          (FRes.emit (checkConformance lshape rshape).2).bind
                            fun _ =>
                          (zipMapF n ctx f ls rs).bind fun pushed =>
                          (asConstExtentsF n lshape).bind fun extOpt =>
                          (fromArrayCtor n ctx ty pushed extOpt).bind fun res =>
                            .done (some res) []
                      | none => .done none []
                  | none => .done none []
                else if isExpandableScalar r' then
                  (foldList n ctx (ls.map (fun x => f x r'))).bind fun pushed =>
                  (asConstExtentsF n lshape).bind fun extOpt =>
                  (fromArrayCtor n ctx ty pushed extOpt).bind fun res =>
                    .done (some res) []
                else .done none []
            | none => .done none []
        | none => .done none []
      else if 0 < rank r' && isExpandableScalar l' then
        match getShape r' with
        | some rshape =>
            match asFlat r' with
            | some rs =>
                (foldList n ctx (rs.map (fun y => f l' y))).bind fun pushed =>
                (asConstExtentsF n rshape).bind fun extOpt =>
                (fromArrayCtor n ctx ty pushed extOpt).bind fun res =>
                  .done (some res) []
            | none => .done none []
        | none => .done none []
      else .done none []
end

/-- `Fold` as a relation, abstracting the fuel: the folder, given enough
fuel, completes on `e` with result `r` and diagnostics `m`. -/
def FoldsTo (ctx : FoldingContext) (e r : Expr) (m : List Msg) : Prop :=
  ∃ n, foldF n ctx e = .done r m

/-- The folder aborts (a `common::die` or failed `CHECK`). -/
def Aborts (ctx : FoldingContext) (e : Expr) : Prop :=
  ∃ n, foldF n ctx e = .die

/-- A scalar `Constant<Type<Integer,4>>` expression. -/
def i4const (v : Int) : Expr := .const ⟨⟨.int, 4⟩, [.int 4 v], []⟩

/-- A `Constant<Type<Integer,4>>` array with the given elements and
shape. -/
def i4array (vs : List Int) (shp : List Int) : Expr :=
  .const ⟨⟨.int, 4⟩, vs.map (fun v => Scal.int 4 v), shp⟩

/-- The default folding context (no implied-DO bindings). -/
def ctx0 : FoldingContext := ⟨[]⟩

/-- Is the expression a `Constant<T>` leaf? -/
def isConstantE : Expr → Bool
  | .const _ => true
  | _ => false

mutual
/-- No subexpression is a `size` reference with DIM= absent whose result
kind differs from the subscript-integer kind 8.  Folding such a
reference can produce an unfolded `Convert` around a constant (fold.cc
line 516 folds the product but not the conversion wrapped around it,
unlike line 500), the one spot where folding is not idempotent. -/
def idemSafe : Expr → Bool
  | .const _ => true
  | .sym _ _ _ => true
  | .substr _ _ lo up => idemSafe lo && idemSafe up
  | .paren e => idemSafe e
  | .neg e => idemSafe e
  | .add a b => idemSafe a && idemSafe b
  | .mul a b => idemSafe a && idemSafe b
  | .extremum _ a b => idemSafe a && idemSafe b
  | .conv _ e => idemSafe e
  | .iDoIndex _ => true
  | .arrayCtor _ vals => idemSafeVals vals
  | .funcRef name k args =>
      !(name == "size" && args.length == 1 && k ≠ 8) && idemSafeList args

def idemSafeList : List Expr → Bool
  | [] => true
  | e :: es => idemSafe e && idemSafeList es

def idemSafeVals : List ACValue → Bool
  | [] => true
  | v :: vs => idemSafeVal v && idemSafeVals vs

def idemSafeVal : ACValue → Bool
  | .expr e => idemSafe e
  | .impliedDo _ lo up st body =>
      idemSafe lo && idemSafe up && idemSafe st && idemSafeVals body
end

/-- The continuation of the `Parentheses` fold after the operand. -/
def parenK : Expr → FRes Expr := fun x' =>
  match scalarConst x' with
  | some (ty, v) => .done (.paren (.const ⟨ty, [v], []⟩)) []
  | none => .done (.paren x') []

/-- The continuation of the `Negate` fold after the operand. -/
def negK (n : Nat) (ctx : FoldingContext) (x' : Expr) : FRes Expr :=
  (applyElem1 n ctx (getType x') (fun y => .neg y) x').bind fun
    | some res => .done res []
    | none =>
        match scalarConst x' with
        | some (_, .int k v) =>
            let r := negSigned k v
            .done (.const ⟨⟨.int, k⟩, [.int k r.value], []⟩)
              (if r.overflow then [s!"INTEGER({k}) negation overflowed"]
               else [])
        | some (_, .real k v) =>
            .done (.const ⟨⟨.real, k⟩, [.real k v.neg], []⟩) []
        | _ => .done (.neg x') []

/-- The continuation of the `Add` fold after both operands. -/
def addK (n : Nat) (ctx : FoldingContext) (a' b' : Expr) : FRes Expr :=
  (applyElem2 n ctx (getType a') (fun x y => .add x y) a' b').bind fun
    | some res => .done res []
    | none =>
        match scalarConst a', scalarConst b' with
        | some (_, .int k x), some (_, .int _ y) =>
            let s := addSigned k x y
            .done (.const ⟨⟨.int, k⟩, [.int k s.value], []⟩)
              (if s.overflow then [s!"INTEGER({k}) addition overflowed"]
               else [])
        | some (_, .real k x), some (_, .real _ y) =>
            .done (.const ⟨⟨.real, k⟩, [.real k (realAdd x y)], []⟩) []
        | _, _ => .done (.add a' b') []

/-- The continuation of the `Multiply` fold after both operands. -/
def mulK (n : Nat) (ctx : FoldingContext) (a' b' : Expr) : FRes Expr :=
  (applyElem2 n ctx (getType a') (fun x y => .mul x y) a' b').bind fun
    | some res => .done res []
    | none =>
        match scalarConst a', scalarConst b' with
        | some (_, .int k x), some (_, .int _ y) =>
            let s := mulSigned k x y
            .done (.const ⟨⟨.int, k⟩, [.int k s.value], []⟩)
              (if s.overflow then
                [s!"INTEGER({k}) multiplication overflowed"]
               else [])
        | some (_, .real k x), some (_, .real _ y) =>
            .done (.const ⟨⟨.real, k⟩, [.real k (realMul x y)], []⟩) []
        | _, _ => .done (.mul a' b') []

/-- The continuation of the `Extremum` fold after both operands. -/
def extK (n : Nat) (ctx : FoldingContext) (ord : Ordering) (a' b' : Expr) :
    FRes Expr :=
  (applyElem2 n ctx (getType a') (fun x y => .extremum .gt x y) a' b').bind fun
    | some res => .done res []
    | none =>
        match scalarConst a', scalarConst b' with
        | some (ty, va), some (_, vb) =>
            match scalarExtremum ord va vb with
            | some w => .done (.const ⟨ty, [w], []⟩) []
            | none => .done (.extremum ord a' b') []
        | _, _ => .done (.extremum ord a' b') []

/-- The continuation of the `Convert` fold after the operand. -/
def convK (n : Nat) (ctx : FoldingContext) (k : Nat) (x' : Expr) : FRes Expr :=
  (applyElem1 n ctx ⟨.int, k⟩ (fun y => .conv k y) x').bind fun
    | some res => .done res []
    | none =>
        match scalarConst x' with
        | some (_, .int k' v) =>
            let c := convertSigned k v
            let ks := k'
            .done (.const ⟨⟨.int, k⟩, [.int k c.value], []⟩)
              (if c.overflow then
                [s!"INTEGER({ks}) to INTEGER({k}) conversion overflowed"]
               else [])
        | _ => .done (.conv k x') []

/-- The continuation of the substring fold after both bounds. -/
def substrK (n : Nat) (ctx : FoldingContext) (base : SubBase) (kind : Nat)
    (lo' up' : Expr) : FRes Expr :=
  match substringExtract base kind lo' up' with
  | some c => .done (.const c) []
  | none =>
      (foldF n ctx (substringLEN lo' up')).bind fun len' =>
        if toInt64 len' == some 0 then
          .done (.const ⟨⟨.char, kind⟩, [.char kind []], []⟩) []
        else .done (.substr base kind lo' up') []

/-- The continuation of the array-constructor fold after the walk. -/
def acK (ty : DynType) (vals : List ACValue) :
    Option (List Scal) → FRes Expr := fun
  | some elems => .done (.const ⟨ty, elems, [(elems.length : Int)]⟩) []
  | none => .done (.arrayCtor ty vals) []

/-- The continuation of the `FunctionRef` fold after the arguments. -/
def frK (n : Nat) (ctx : FoldingContext) (name : String) (k : Nat)
    (args' : List Expr) : FRes Expr :=
  if isShiftGroupName name then
    match args' with
    | [x, nArg] =>
        (if (getType nArg).cat == .int && (getType nArg).kind ≠ 4 then
          foldF n ctx (.conv 4 nArg)
         else .done nArg []).bind fun nArg' =>
          match pickShiftOp name with
          | some op =>
              let f : Scal → Scal → Scal := fun i pos =>
                match i, pos with
                | .int _ v, .int _ p => .int k (op k v p)
                | _, _ => .int k 0
              let rm := foldElemental2 (.funcRef name k [x, nArg'])
                ⟨.int, k⟩ f x nArg'
              .done rm.1 rm.2
          | none => .die
    | _ => .done (.funcRef name k args') []
  else if name == "size" then
    match args' with
    | [a] =>
        match getShape a with
        | some shape =>
            match allPresent shape with
            | some exts =>
                let product :=
                  exts.foldl (fun p e => .mul p e) (i8const 1)
                (foldF n ctx product).bind fun p' =>
                  .done (convertToType k p') []
            | none => .done (.funcRef name k args') []
        | none => .done (.funcRef name k args') []
    | [a, dimE] =>
        match getShape a with
        | some shape =>
            match toInt64 dimE with
            | some d =>
                if 1 ≤ d ∧ d ≤ (shape.length : Int) then
                  match shape.get? (d - 1).toNat with
                  | some (some ext) =>
                      (foldF n ctx (convertToType k ext)).bind fun r =>
                        .done r []
                  | _ => .done (.funcRef name k args') []
                else
                  .done (.funcRef name k args')
                    [s!"size(array,dim={d}) dimension is out of range for rank-{shape.length} array"]
            | none => .done (.funcRef name k args') []
        | none => .done (.funcRef name k args') []
    | _ => .done (.funcRef name k args') []
  else .done (.funcRef name k args') []

/-- The continuation of `FromArrayConstructor` after folding the
rebuilt constructor. -/
def faK (n : Nat) (shapeOpt : Option (List Int)) (res : Expr) : FRes Expr :=
  match shapeOpt with
  | none => .done res []
  | some shp =>
      match res with
      | .const c => .done (.const ⟨c.ty, c.elems, shp⟩) []
      | _ =>
          match getShape res with
          | none => .die
          | some rs =>
              (asConstExtentsF n rs).bind fun
                | none => .die
                | some ext => if ext = shp then .done res [] else .die

/-! ## Basic lemmas -/

theorem foldF_const (n : Nat) (ctx : FoldingContext) (c : ConstantV) :
    foldF (n + 1) ctx (.const c) = .done (.const c) [] := rfl

theorem scalarConst_const {c : ConstantV} {ty : DynType} {v : Scal}
    (h : scalarConst (.const c) = some (ty, v)) : c = ⟨ty, [v], []⟩ := by
  rcases c with ⟨ty', elems, shape⟩
  match elems, shape with
  | [], _ => simp [scalarConst] at h
  | [a], [] =>
      simp [scalarConst] at h
      obtain ⟨h1, h2⟩ := h
      rw [h1, h2]
  | [a], s :: ss => simp [scalarConst] at h
  | a :: b :: tl, _ => simp [scalarConst] at h

theorem toInt64_i8const (v : Int) : toInt64 (i8const v) = some v := rfl

/-! ## C1 -/

/-- C1: the claim demands that a binary elementwise operation over two
constant arrays of known mismatched shapes emit the conformance
diagnostic and return the operation unfolded.  Evaluating the embedded
folder at the failing input `Add([1,2] : shape [2], [10,20,30] : shape
[3])` shows the diagnostic is emitted but a folded `Constant` of the
left operand's shape is returned anyway (`ApplyElementwise` ignores
`CheckConformance`'s verdict, fold.cc line 1248); with the longer array
on the left, the element zip runs off the right operand and the folder
aborts on the `CHECK` of fold.cc line 1113 instead of returning the
operation unfolded. -/
theorem c1_conformance_failing_input :
    foldF 20 ctx0 (.add (i4array [1, 2] [2]) (i4array [10, 20, 30] [3])) =
        .done (.const ⟨⟨.int, 4⟩, [.int 4 11, .int 4 22], [2]⟩)
          [conformabilityMsg] ∧
      isConstantE (.const ⟨⟨.int, 4⟩, [.int 4 11, .int 4 22], [2]⟩) = true ∧
      foldF 20 ctx0 (.add (i4array [1, 2, 3] [3]) (i4array [10, 20] [2])) =
        .die :=
  ⟨rfl, rfl, rfl⟩

/-! ## C2 -/

/-- C2: folding a `FunctionRef` to the integer intrinsic `ishft` never
returns: the dispatch guard of fold.cc line 368 admits `"ishft"`, but
the function-pointer chain below it handles only the misspelled
`"ibshft"`, so `common::die("missing case to fold intrinsic function
%s")` is reached — with constant operands (`ishft(5, 1)`) and even with
a non-constant first operand — instead of the shifted `Constant` the
claim (and the spec) require. -/
theorem c2_ishft_folding_aborts :
    foldF 20 ctx0 (.funcRef "ishft" 4 [i4const 5, i4const 1]) = .die ∧
      foldF 20 ctx0
          (.funcRef "ishft" 4 [.sym "m" ⟨.int, 4⟩ 0, i4const 1]) = .die ∧
      foldF 20 ctx0 (.funcRef "shiftl" 4 [i4const 5, i4const 1]) =
        .done (i4const 10) [] :=
  ⟨rfl, rfl, rfl⟩

/-! ## C7 -/

/-- C7: for every constant `c` — scalar or array — folding
`Parentheses(c)` yields `Parentheses(c)` with the constant kept inside;
the parentheses node is never elided (fold.cc lines 1371-1380). -/
theorem c7_parentheses_preserved (ctx : FoldingContext) (c : ConstantV) :
    FoldsTo ctx (.paren (.const c)) (.paren (.const c)) [] := by
  refine ⟨2, ?_⟩
  match h : scalarConst (.const c) with
  | some (ty, v) =>
      obtain rfl := scalarConst_const h
      rfl
  | none => simp only [foldF, FRes.bind, h, List.nil_append]

/-! ## C3 -/

/-- Folding an `Extremum<T>` whose operands are scalar constants reduces
to `scalarExtremum` (fold.cc lines 1612-1636; the elementwise lift does
not fire on rank-0 operands). -/
theorem foldF_extremum_scalars (n : Nat) (ctx : FoldingContext)
    (ord : Ordering) (ty ty' : DynType) (va vb : Scal) :
    foldF (n + 3) ctx
        (.extremum ord (.const ⟨ty, [va], []⟩) (.const ⟨ty', [vb], []⟩)) =
      match scalarExtremum ord va vb with
      | some w => .done (.const ⟨ty, [w], []⟩) []
      | none =>
          .done (.extremum ord (.const ⟨ty, [va], []⟩)
            (.const ⟨ty', [vb], []⟩)) [] := by
  match h : scalarExtremum ord va vb with
  | some w => simp [foldF, applyElem2, FRes.bind, rank, scalarConst, h]
  | none => simp [foldF, applyElem2, FRes.bind, rank, scalarConst, h]

/-- C3: the claim says that for Real, if EITHER operand is a NaN the
result is the first operand.  Counterexample: `Extremum` with
`Ordering::Less` (MIN) over the constants `1.0` and `NaN` folds to the
SECOND operand, the NaN — the code (fold.cc lines 1622-1627) only
checks `folded->first.IsNotANumber()`, and `Compare` against a NaN
second operand yields `Unordered`, which under `Ordering::Less` selects
the second operand. -/
theorem c3_nan_counterexample :
    foldF 10 ctx0
        (.extremum .lt (.const ⟨⟨.real, 4⟩, [.real 4 (.fin 1)], []⟩)
          (.const ⟨⟨.real, 4⟩, [.real 4 .nan], []⟩)) =
      .done (.const ⟨⟨.real, 4⟩, [.real 4 .nan], []⟩) [] ∧
      (Expr.const ⟨⟨.real, 4⟩, [.real 4 .nan], []⟩ ≠
        .const ⟨⟨.real, 4⟩, [.real 4 (.fin 1)], []⟩) :=
  ⟨rfl, by simp⟩

/-- C3 (amended): for every fold of `Extremum<T>` with two scalar
constant operands the result is the constant `scalarExtremum` selects,
and that selection satisfies: for Integer the larger (`Ordering::
Greater`) or smaller (`Ordering::Less`) value is returned and ties
return a constant equal to the first operand; for Real a NaN FIRST
operand is always returned, but when only the second operand is NaN,
`Ordering::Less` returns the second operand (the NaN) and any other
ordering the first; for Character ties return a constant equal to the
first operand. -/
theorem c3_amended_extremum (ctx : FoldingContext) :
    (∀ ord ty ty' va vb w, scalarExtremum ord va vb = some w →
        FoldsTo ctx
          (.extremum ord (.const ⟨ty, [va], []⟩) (.const ⟨ty', [vb], []⟩))
          (.const ⟨ty, [w], []⟩) []) ∧
      (∀ (k : Nat) (x y : Int),
        scalarExtremum .gt (.int k x) (.int k y) = some (.int k (max x y))) ∧
      (∀ (k : Nat) (x y : Int),
        scalarExtremum .lt (.int k x) (.int k y) = some (.int k (min x y))) ∧
      (∀ (ord : Ordering) (k : Nat) (x : RealV),
        scalarExtremum ord (.real k .nan) (.real k x) =
          some (.real k .nan)) ∧
      (∀ (ord : Ordering) (k : Nat) (v : Int),
        scalarExtremum ord (.real k (.fin v)) (.real k .nan) =
          some (if ord == .lt then .real k .nan else .real k (.fin v))) ∧
      (∀ (ord : Ordering) (k : Nat) (s : List Nat),
        scalarExtremum ord (.char k s) (.char k s) = some (.char k s)) := by
  refine ⟨?_, ?_, ?_, ?_, ?_, ?_⟩
  · intro ord ty ty' va vb w h
    refine ⟨3, ?_⟩
    rw [show (3 : Nat) = 0 + 3 from rfl, foldF_extremum_scalars, h]
  · intro k x y
    rcases lt_trichotomy x y with h | h | h
    · simp +decide [scalarExtremum, cmpInt, h, not_lt.mpr h.le,
        max_eq_right h.le]
    · simp [scalarExtremum, cmpInt, h]
    · simp +decide [scalarExtremum, cmpInt, h, not_lt.mpr h.le, h.ne',
        max_eq_left h.le]
  · intro k x y
    rcases lt_trichotomy x y with h | h | h
    · simp +decide [scalarExtremum, cmpInt, h, min_eq_left h.le]
    · simp [scalarExtremum, cmpInt, h]
    · simp +decide [scalarExtremum, cmpInt, not_lt.mpr h.le, h.ne',
        min_eq_right h.le]
  · intro ord k x
    simp [scalarExtremum, RealV.isNaN]
  · intro ord k v
    cases ord <;> simp +decide [scalarExtremum, RealV.isNaN, realCompare]
  · intro ord k s
    simp [scalarExtremum]

/-- C3 amended, applied at a concrete input: MIN(7, 3) over integer
scalars folds to 3. -/
theorem c3_amended_extremum_witness :
    FoldsTo ctx0
      (.extremum .lt (.const ⟨⟨.int, 4⟩, [.int 4 7], []⟩)
        (.const ⟨⟨.int, 4⟩, [.int 4 3], []⟩))
      (.const ⟨⟨.int, 4⟩, [.int 4 3], []⟩) [] :=
  (c3_amended_extremum ctx0).1 .lt _ _ _ _ _ rfl

/-! ## C4 -/

/-- C4: the claim says a failed array-constructor fold returns the
original constructor "in which every subtree has been replaced by its
folded form".  Counterexample: the constructor `[x, 1+2]` (with `x` a
symbol) fails to fold, and the folder returns it with the `1+2` subtree
still UNFOLDED — `ArrayConstructorFolder` folds copies of the subtrees
(fold.cc lines 863-864) and never writes them back, so the result is
not the constructor with folded subtrees. -/
theorem c4_subtrees_not_folded_counterexample :
    foldF 20 ctx0 (.arrayCtor ⟨.int, 4⟩
        [.expr (.sym "x" ⟨.int, 4⟩ 0), .expr (.add (i4const 1) (i4const 2))]) =
      .done (.arrayCtor ⟨.int, 4⟩
        [.expr (.sym "x" ⟨.int, 4⟩ 0),
          .expr (.add (i4const 1) (i4const 2))]) [] ∧
      (Expr.arrayCtor ⟨.int, 4⟩
          [.expr (.sym "x" ⟨.int, 4⟩ 0),
            .expr (.add (i4const 1) (i4const 2))] ≠
        .arrayCtor ⟨.int, 4⟩
          [.expr (.sym "x" ⟨.int, 4⟩ 0), .expr (i4const 3)]) :=
  ⟨rfl, by simp [i4const]⟩

/-- C4 (amended): for every `ArrayConstructor<T>` whose element walk
fails — in particular on any element that does not fold to a constant,
or any implied DO whose folded stride is zero — the fold abandons the
reduction and returns the original constructor UNCHANGED (the folded
subtrees are computed on copies and not written back). -/
theorem c4_amended_failed_fold_returns_original :
    (∀ n ctx ty vals m, walkVals n ctx vals = .done none m →
        foldF (n + 1) ctx (.arrayCtor ty vals) =
          .done (.arrayCtor ty vals) m) ∧
      (∀ n ctx e r m, foldF n ctx e = .done r m → isConstantE r = false →
        walkVal (n + 1) ctx (.expr e) = .done none m) ∧
      (∀ n ctx name lo lo' up up' st st' body m1 m2 m3 a b,
        foldF n ctx lo = .done lo' m1 → foldF n ctx up = .done up' m2 →
        foldF n ctx st = .done st' m3 →
        toInt64 lo' = some a → toInt64 up' = some b →
        toInt64 st' = some 0 →
        walkVal (n + 1) ctx (.impliedDo name lo up st body) =
          .done none (m1 ++ m2 ++ m3)) := by
  refine ⟨?_, ?_, ?_⟩
  · intro n ctx ty vals m h
    simp [foldF, FRes.bind, h]
  · intro n ctx e r m h hr
    cases r <;> simp_all [walkVal, FRes.bind, isConstantE]
  · intro n ctx name lo lo' up up' st st' body m1 m2 m3 a b h1 h2 h3 t1 t2 t3
    simp [walkVal, FRes.bind, h1, h2, h3, t1, t2, t3]

/-- C4 amended, applied at a concrete input: a constructor holding one
non-constant symbol folds to itself. -/
theorem c4_amended_witness :
    foldF 20 ctx0 (.arrayCtor ⟨.int, 4⟩ [.expr (.sym "y" ⟨.int, 4⟩ 0)]) =
      .done (.arrayCtor ⟨.int, 4⟩ [.expr (.sym "y" ⟨.int, 4⟩ 0)]) [] :=
  c4_amended_failed_fold_returns_original.1 19 ctx0 _ _ [] rfl

/-! ## C6 -/

/-- The values an implied DO with a positive stride runs through are
exactly the reachable values not exceeding the upper bound
(the loop `for (; j <= *end; j += *step)` of fold.cc line 904). -/
theorem trips_mem_pos (start stop step j : Int) (hstep : 0 < step) :
    j ∈ trips start stop step ↔
      (∃ i : Nat, j = start + step * i) ∧ j ≤ stop := by
  unfold trips tripCount
  rw [if_pos hstep, List.mem_map]
  have hs : ((step.toNat : Int)) = step := Int.toNat_of_nonneg hstep.le
  constructor
  · rintro ⟨i, hi, rfl⟩
    rw [List.mem_range] at hi
    refine ⟨⟨i, rfl⟩, ?_⟩
    by_cases hle : start ≤ stop
    · rw [if_pos hle] at hi
      have hi' : i ≤ (stop - start).toNat / step.toNat :=
        Nat.lt_succ_iff.mp hi
      have h2 : i * step.toNat ≤ (stop - start).toNat :=
        (Nat.le_div_iff_mul_le (by omega)).mp hi'
      have h3 : ((i * step.toNat : Nat) : Int) ≤ ((stop - start).toNat : Int) :=
        Int.ofNat_le.mpr h2
      rw [Int.toNat_of_nonneg (by omega : (0:Int) ≤ stop - start)] at h3
      push_cast at h3
      rw [hs] at h3
      nlinarith
    · rw [if_neg hle] at hi
      omega
  · rintro ⟨⟨i, rfl⟩, hle⟩
    have hi0 : (0 : Int) ≤ (i : Int) := Int.ofNat_nonneg i
    have hnn : (0 : Int) ≤ step * i := by positivity
    have hle2 : start ≤ stop := by nlinarith
    rw [if_pos hle2]
    refine ⟨i, ?_, rfl⟩
    rw [List.mem_range]
    have h2 : (↑(i * step.toNat) : Int) ≤ ((stop - start).toNat : Int) := by
      push_cast
      rw [hs, Int.toNat_of_nonneg (by omega : (0:Int) ≤ stop - start)]
      nlinarith
    have h3 : i * step.toNat ≤ (stop - start).toNat := Int.ofNat_le.mp h2
    have h4 : i ≤ (stop - start).toNat / step.toNat :=
      (Nat.le_div_iff_mul_le (by omega)).mpr h3
    omega

/-- The mirror image for a negative stride
(the loop `for (; j >= *end; j += *step)` of fold.cc line 908). -/
theorem trips_mem_neg (start stop step j : Int) (hstep : step < 0) :
    j ∈ trips start stop step ↔
      (∃ i : Nat, j = start + step * i) ∧ stop ≤ j := by
  unfold trips tripCount
  rw [if_neg (by omega), if_pos hstep, List.mem_map]
  have hs : (((-step).toNat : Int)) = -step := Int.toNat_of_nonneg (by omega)
  constructor
  · rintro ⟨i, hi, rfl⟩
    rw [List.mem_range] at hi
    refine ⟨⟨i, rfl⟩, ?_⟩
    by_cases hle : stop ≤ start
    · rw [if_pos hle] at hi
      have hi' : i ≤ (start - stop).toNat / (-step).toNat :=
        Nat.lt_succ_iff.mp hi
      have h2 : i * (-step).toNat ≤ (start - stop).toNat :=
        (Nat.le_div_iff_mul_le (by omega)).mp hi'
      have h3 : ((i * (-step).toNat : Nat) : Int) ≤
          ((start - stop).toNat : Int) := Int.ofNat_le.mpr h2
      rw [Int.toNat_of_nonneg (by omega : (0:Int) ≤ start - stop)] at h3
      push_cast at h3
      rw [hs] at h3
      nlinarith
    · rw [if_neg hle] at hi
      omega
  · rintro ⟨⟨i, rfl⟩, hle⟩
    have hi0 : (0 : Int) ≤ (i : Int) := Int.ofNat_nonneg i
    have hnn : step * i ≤ 0 := by nlinarith
    have hle2 : stop ≤ start := by nlinarith
    rw [if_pos hle2]
    refine ⟨i, ?_, rfl⟩
    rw [List.mem_range]
    have h2 : (↑(i * (-step).toNat) : Int) ≤ ((start - stop).toNat : Int) := by
      push_cast
      rw [hs, Int.toNat_of_nonneg (by omega : (0:Int) ≤ start - stop)]
      nlinarith
    have h3 : i * (-step).toNat ≤ (start - stop).toNat := Int.ofNat_le.mp h2
    have h4 : i ≤ (start - stop).toNat / (-step).toNat :=
      (Nat.le_div_iff_mul_le (by omega)).mpr h3
    omega

/-- C6: an implied DO with constant bounds and stride 0 makes the
array-constructor fold fail, returning the original constructor
(fold.cc lines 898-900), with no diagnostics; a positive stride
iterates exactly the reachable index values `j ≤ upper`, a negative
one exactly those with `j ≥ upper`; and the concrete constructor
`[(i*i, i = 1, 5, 1)]` of Int4 folds to the rank-1 constant of shape
`[5]` with values `[1, 4, 9, 16, 25]` and no diagnostics. -/
theorem c6_implied_do_unrolling :
    (∀ (n : Nat) (ctx : FoldingContext) (ty : DynType) (name : String)
        (a b : Int) (body : List ACValue),
        foldF (n + 4) ctx (.arrayCtor ty
            [.impliedDo name (i8const a) (i8const b) (i8const 0) body]) =
          .done (.arrayCtor ty
            [.impliedDo name (i8const a) (i8const b) (i8const 0) body]) []) ∧
      (∀ start stop step j, 0 < step →
        (j ∈ trips start stop step ↔
          (∃ i : Nat, j = start + step * i) ∧ j ≤ stop)) ∧
      (∀ start stop step j, step < 0 →
        (j ∈ trips start stop step ↔
          (∃ i : Nat, j = start + step * i) ∧ stop ≤ j)) ∧
      foldF 30 ctx0 (.arrayCtor ⟨.int, 4⟩
          [.impliedDo "i" (i8const 1) (i8const 5) (i8const 1)
            [.expr (.mul (.conv 4 (.iDoIndex "i"))
              (.conv 4 (.iDoIndex "i")))]]) =
        .done (.const ⟨⟨.int, 4⟩,
          [.int 4 1, .int 4 4, .int 4 9, .int 4 16, .int 4 25], [5]⟩) [] := by
  refine ⟨?_, trips_mem_pos, trips_mem_neg, rfl⟩
  intro n ctx ty name a b body
  simp [foldF, walkVals, walkVal, FRes.bind, toInt64, i8const]

/-- C6, applied at a concrete input: with stride 2 from 1 to 5, the
index value 3 is iterated. -/
theorem c6_implied_do_unrolling_witness :
    (0 : Int) < 2 ∧
      ((3 : Int) ∈ trips 1 5 2 ↔
        (∃ i : Nat, (3 : Int) = 1 + 2 * i) ∧ (3 : Int) ≤ 5) :=
  ⟨by decide, c6_implied_do_unrolling.2.1 1 5 2 3 (by decide)⟩

/-! ## C9 -/

theorem wrap_eq_of_inRange {kind : Nat} {v : Int} (hk : 0 < kind)
    (h : inRange kind v) : wrap kind v = v := by
  obtain ⟨h1, h2⟩ := h
  unfold wrap
  have hw : (2:Int) ^ bits kind = 2 ^ (bits kind - 1) * 2 := by
    rw [← pow_succ]
    congr 1
    unfold bits
    omega
  rw [hw, Int.emod_eq_of_lt (by omega) (by omega)]
  omega

/-- Folding `Substring::LEN`, i.e. `MAX(0, upper - lower + 1)`, over
constant kind-8 bounds with an empty range yields the constant 0 (no
intermediate computation overflows under the range hypotheses). -/
theorem foldF_substringLEN_zero (m : Nat) (ctx : FoldingContext) (l u : Int)
    (hul : u < l) (hr1 : inRange 8 (-l)) (hr2 : inRange 8 (u + -l))
    (hr3 : inRange 8 (u + -l + 1)) :
    foldF (m + 5) ctx (substringLEN (i8const l) (i8const u)) =
      .done (i8const 0) [] := by
  unfold substringLEN
  have e1 : wrap 8 (-l) = -l := wrap_eq_of_inRange (by norm_num) hr1
  have e2 : wrap 8 (u + -l) = u + -l := wrap_eq_of_inRange (by norm_num) hr2
  have e3 : wrap 8 (u + -l + 1) = u + -l + 1 :=
    wrap_eq_of_inRange (by norm_num) hr3
  rcases eq_or_lt_of_le (by omega : u + -l + 1 ≤ 0) with hz | hz
  · simp [foldF, FRes.bind, applyElem1, applyElem2, rank, i8const,
      scalarConst, negSigned, addSigned, scalarExtremum, cmpInt,
      e1, e2, e3, hr1, hr2, hr3, toInt64, ← hz]
  · simp +decide [foldF, FRes.bind, applyElem1, applyElem2, rank, i8const,
      scalarConst, negSigned, addSigned, scalarExtremum, cmpInt,
      e1, e2, e3, hr1, hr2, hr3, toInt64, hz, not_lt.mpr hz.le,
      (show ¬((0:Int) = u + -l + 1) by omega)]

/-- C9: for every character designator whose substring has a
non-constant base (here: a symbol) but whose bounds fold to constants
making `LEN = MAX(0, upper-lower+1)` fold to 0, the designator folds to
a zero-length character `Constant` (fold.cc lines 810-814). -/
theorem c9_zero_length_substring (m : Nat) (ctx : FoldingContext)
    (name : String) (kind : Nat) (lo up : Expr) (ml mu : List Msg)
    (l u : Int)
    (h1 : foldF (m + 5) ctx lo = .done (i8const l) ml)
    (h2 : foldF (m + 5) ctx up = .done (i8const u) mu)
    (hul : u < l) (hr1 : inRange 8 (-l)) (hr2 : inRange 8 (u + -l))
    (hr3 : inRange 8 (u + -l + 1)) :
    foldF (m + 6) ctx (.substr (.dataObj name) kind lo up) =
      .done (.const ⟨⟨.char, kind⟩, [.char kind []], []⟩) (ml ++ mu) := by
  have hlen := foldF_substringLEN_zero m ctx l u hul hr1 hr2 hr3
  have hstep : foldF (m + 6) ctx (.substr (.dataObj name) kind lo up) =
      (foldF (m + 5) ctx lo).bind fun lo' =>
      (foldF (m + 5) ctx up).bind fun up' =>
        match substringExtract (.dataObj name) kind lo' up' with
        | some c => .done (.const c) []
        | none =>
            (foldF (m + 5) ctx (substringLEN lo' up')).bind fun len' =>
              if toInt64 len' == some 0 then
                .done (.const ⟨⟨.char, kind⟩, [.char kind []], []⟩) []
              else .done (.substr (.dataObj name) kind lo' up') [] := rfl
  rw [hstep, h1]
  simp only [FRes.bind]
  rw [h2]
  simp only [substringExtract]
  rw [hlen]
  simp [toInt64, i8const]

/-- C9, applied at a concrete input: `s(2:1)` with `s` a symbol folds
to the zero-length character constant. -/
theorem c9_zero_length_substring_witness :
    foldF 6 ctx0 (.substr (.dataObj "s") 1 (i8const 2) (i8const 1)) =
      .done (.const ⟨⟨.char, 1⟩, [.char 1 []], []⟩) [] :=
  c9_zero_length_substring 0 ctx0 "s" 1 _ _ [] [] 2 1 rfl rfl (by decide)
    (by decide) (by decide) (by decide)

/-! ## C8 -/

/-- C8: the claim says that with DIM= absent and all extents known, the
`size` call folds to the product of the extents.  Counterexample: for a
result kind other than the subscript-integer kind 8 (here Int4), the
call folds to an UNFOLDED `Convert` node wrapping the folded product —
fold.cc line 516 folds the product but not the conversion around it
(line 500, the DIM= path, does fold its conversion) — which is not a
`Constant`. -/
theorem c8_dimless_size_counterexample :
    foldF 30 ctx0 (.funcRef "size" 4
        [i4array [1, 2, 3, 4, 5, 6, 7, 8, 9, 10, 11, 12] [3, 4]]) =
        .done (.conv 4 (i8const 12)) [] ∧
      isConstantE (.conv 4 (i8const 12)) = false :=
  ⟨rfl, rfl⟩

/-- C8 (amended): folding `size(a, dim=d)` with the shape of the folded
argument known: when `1 ≤ d ≤ rank` and that extent is a known constant
that fits the result kind, the call folds to that constant extent; when
`d` is out of range, the diagnostic `size(array,dim=...) dimension is
out of range for rank-... array` is emitted and the call is returned
unfolded (with folded arguments); with DIM= absent and all extents
present, the result is the FOLDED PRODUCT of the extents wrapped in the
conversion to the result kind, which is left unfolded for kinds other
than the subscript-integer kind 8 (`convertToType` is the identity at
kind 8, so only there the call folds to the constant product). -/
theorem c8_amended_size (m : Nat) (ctx : FoldingContext) (k : Nat)
    (a a' : Expr) (ma : List Msg) (sh : List (Option Expr))
    (h : foldF (m + 2) ctx a = .done a' ma) (hsh : getShape a' = some sh) :
    (∀ d v, 1 ≤ d → d ≤ (sh.length : Int) →
        sh[d.toNat - 1]? = some (some (i8const v)) → 0 < k → inRange k v →
        foldF (m + 4) ctx (.funcRef "size" k [a, i8const d]) =
          .done (.const ⟨⟨.int, k⟩, [.int k v], []⟩) ma) ∧
      (∀ d, ¬(1 ≤ d ∧ d ≤ (sh.length : Int)) →
        foldF (m + 4) ctx (.funcRef "size" k [a, i8const d]) =
          .done (.funcRef "size" k [a', i8const d])
            (ma ++
              [s!"size(array,dim={d}) dimension is out of range for rank-{sh.length} array"])) ∧
      (∀ exts p' mp, allPresent sh = some exts →
        foldF (m + 3) ctx (exts.foldl (fun p e => .mul p e) (i8const 1)) =
          .done p' mp →
        foldF (m + 4) ctx (.funcRef "size" k [a]) =
          .done (convertToType k p') (ma ++ mp)) := by
  refine ⟨?_, ?_, ?_⟩
  · intro d v hd1 hd2 hget hk hv
    have ev : wrap k v = v := wrap_eq_of_inRange hk hv
    by_cases h8 : k = 8
    · subst h8
      simp +decide [foldF, foldList, FRes.bind, h, hsh, hget, toInt64,
        i8const, isShiftGroupName, convertToType, hd1, hd2]
    · simp +decide [foldF, foldList, FRes.bind, h, hsh, hget, toInt64,
        i8const, isShiftGroupName, convertToType, hd1, hd2, h8, applyElem1,
        rank, scalarConst, convertSigned, ev, hv]
  · intro d hd
    simp +decide [foldF, foldList, FRes.bind, h, hsh, toInt64, i8const,
      isShiftGroupName, hd]
  · intro exts p' mp hall hp
    simp +decide [foldF, foldList, FRes.bind, h, hsh, hall, hp,
      isShiftGroupName]

/-- C8 amended, applied at a concrete input: `size([1,2] : shape [2],
dim=1)` folds to the Int4 constant 2. -/
theorem c8_amended_size_witness :
    foldF 4 ctx0 (.funcRef "size" 4 [i4array [1, 2] [2], i8const 1]) =
      .done (.const ⟨⟨.int, 4⟩, [.int 4 2], []⟩) [] :=
  (c8_amended_size 0 ctx0 4 (i4array [1, 2] [2]) (i4array [1, 2] [2]) []
      [some (i8const 2)] rfl rfl).1 1 2 (by decide) (by decide)
    rfl (by decide) (by decide)

/-! ## C10 -/

theorem range_map_getD_zipWith (f : Scal → Scal → Scal) :
    ∀ (n : Nat) (l1 l2 : List Scal), l1.length = n → l2.length = n →
      (List.range n).map
          (fun i => f (l1.getD i (.int 0 0)) (l2.getD i (.int 0 0))) =
        List.zipWith f l1 l2 := by
  intro n
  induction n with
  | zero =>
      intro l1 l2 h1 h2
      rw [List.length_eq_zero] at h1 h2
      subst h1; subst h2
      rfl
  | succ n ih =>
      intro l1 l2 h1 h2
      match l1, l2 with
      | a :: l1', b :: l2' =>
          simp only [List.range_succ_eq_map, List.map_cons, List.map_map]
          simp only [List.zipWith_cons_cons]
          congr 1
          have := ih l1' l2' (by simpa using h1) (by simpa using h2)
          rw [← this]
          apply List.map_congr_left
          intro i _
          rfl

theorem range_map_getD_map (g : Scal → Scal) :
    ∀ (n : Nat) (l : List Scal), l.length = n →
      (List.range n).map (fun i => g (l.getD i (.int 0 0))) = l.map g := by
  intro n
  induction n with
  | zero =>
      intro l h
      rw [List.length_eq_zero] at h
      subst h
      rfl
  | succ n ih =>
      intro l h
      match l with
      | a :: l' =>
          simp only [List.range_succ_eq_map, List.map_cons, List.map_map]
          congr 1
          have := ih l' (by simpa using h)
          rw [← this]
          apply List.map_congr_left
          intro i _
          rfl

theorem range_map_getD_mapR (f : Scal → Scal → Scal) (s : Scal) :
    ∀ (n : Nat) (l : List Scal), l.length = n →
      (List.range n).map (fun i => f (l.getD i (.int 0 0)) s) =
        l.map (fun x => f x s) := by
  intro n
  induction n with
  | zero =>
      intro l h
      rw [List.length_eq_zero] at h
      subst h
      rfl
  | succ n ih =>
      intro l h
      match l with
      | a :: l' =>
          simp only [List.range_succ_eq_map, List.map_cons, List.map_map]
          congr 1
          have := ih l' (by simpa using h)
          rw [← this]
          apply List.map_congr_left
          intro i _
          rfl

/-- C10: for `FoldElementalIntrinsicHelper` over two (folded, constant)
arguments whose element counts respect their shapes: two array
arguments of unequal shapes emit the diagnostic `arguments in elemental
intrinsic function are not conformable` and leave the reference
unfolded; equal shapes produce the elementwise `Constant` of that
shape; a rank-0 argument broadcasts against the other argument's shape;
and when an argument is not a constant the reference is returned
unfolded with no diagnostic. -/
theorem c10_elemental_conformance :
    (∀ (orig : Expr) (resTy : DynType) (f : Scal → Scal → Scal)
        (c1 c2 : ConstantV), 0 < c1.shape.length → 0 < c2.shape.length →
        c1.shape ≠ c2.shape →
        foldElemental2 orig resTy f (.const c1) (.const c2) =
          (orig, [elementalConformabilityMsg])) ∧
      (∀ (orig : Expr) (resTy : DynType) (f : Scal → Scal → Scal)
        (c1 c2 : ConstantV), c1.shape = c2.shape →
        c1.elems.length = totalElementCount c1.shape →
        c2.elems.length = totalElementCount c2.shape →
        foldElemental2 orig resTy f (.const c1) (.const c2) =
          (.const ⟨resTy, List.zipWith f c1.elems c2.elems, c1.shape⟩, [])) ∧
      (∀ (orig : Expr) (resTy : DynType) (f : Scal → Scal → Scal)
        (c1 c2 : ConstantV) (s : Scal), c1.shape = [] → c1.elems = [s] →
        c2.elems.length = totalElementCount c2.shape →
        foldElemental2 orig resTy f (.const c1) (.const c2) =
          (.const ⟨resTy, c2.elems.map (f s), c2.shape⟩, [])) ∧
      (∀ (orig : Expr) (resTy : DynType) (f : Scal → Scal → Scal)
        (c1 c2 : ConstantV) (s : Scal), c2.shape = [] → c2.elems = [s] →
        c1.elems.length = totalElementCount c1.shape →
        foldElemental2 orig resTy f (.const c1) (.const c2) =
          (.const ⟨resTy, c1.elems.map (fun x => f x s), c1.shape⟩, [])) ∧
      (∀ (orig : Expr) (resTy : DynType) (f : Scal → Scal → Scal)
        (a1 a2 : Expr), isConstantE a1 = false ∨ isConstantE a2 = false →
        foldElemental2 orig resTy f a1 a2 = (orig, [])) := by
  refine ⟨?_, ?_, ?_, ?_, ?_⟩
  · intro orig resTy f c1 c2 h1 h2 hne
    simp [foldElemental2, h1, h2, hne]
  · intro orig resTy f c1 c2 hsh h1 h2
    rcases c1 with ⟨t1, e1, s1⟩
    rcases c2 with ⟨t2, e2, s2⟩
    simp only at hsh h1 h2
    subst hsh
    by_cases hz : 0 < s1.length
    · simp only [foldElemental2, ne_eq, not_true_eq_false, and_false,
        if_false, hz, if_true, and_true, elemAt]
      rw [range_map_getD_zipWith f _ e1 e2 h1 h2]
    · have hs : s1 = [] := by cases s1 <;> simp_all
      subst hs
      obtain ⟨x, rfl⟩ := List.length_eq_one.mp (by simpa using h1)
      obtain ⟨y, rfl⟩ := List.length_eq_one.mp (by simpa using h2)
      rfl
  · intro orig resTy f c1 c2 s hsh he h2
    rcases c1 with ⟨t1, e1, s1⟩
    rcases c2 with ⟨t2, e2, s2⟩
    simp only at hsh he h2
    subst hsh
    subst he
    simp only [foldElemental2, List.length_nil, lt_irrefl, false_and, ne_eq,
      if_false]
    by_cases hz : 0 < s2.length
    · simp only [if_pos hz, elemAt, List.getD_cons_zero]
      rw [range_map_getD_map (f s) _ e2 h2]
    · have hs : s2 = [] := by cases s2 <;> simp_all
      subst hs
      obtain ⟨y, rfl⟩ := List.length_eq_one.mp (by simpa using h2)
      rfl
  · intro orig resTy f c1 c2 s hsh he h1
    rcases c1 with ⟨t1, e1, s1⟩
    rcases c2 with ⟨t2, e2, s2⟩
    simp only at hsh he h1
    subst hsh
    subst he
    simp only [foldElemental2, List.length_nil, lt_irrefl, and_false, ne_eq,
      if_false]
    by_cases hz : 0 < s1.length
    · simp only [if_pos hz, elemAt, List.getD_cons_zero]
      rw [range_map_getD_mapR f s _ e1 h1]
      simp
    · have hs : s1 = [] := by cases s1 <;> simp_all
      subst hs
      obtain ⟨y, rfl⟩ := List.length_eq_one.mp (by simpa using h1)
      rfl
  · intro orig resTy f a1 a2 h
    cases a1 <;> cases a2 <;>
      first
        | rfl
        | (rcases h with h | h <;> simp [isConstantE] at h)

/-- C10, applied at a concrete input: shapes `[2]` and `[3]` are not
conformable, the reference is left unfolded with the diagnostic. -/
theorem c10_elemental_conformance_witness :
    foldElemental2 (.sym "q" ⟨.int, 4⟩ 0) ⟨.int, 4⟩ (fun a _ => a)
        (.const ⟨⟨.int, 4⟩, [.int 4 1, .int 4 2], [2]⟩)
        (.const ⟨⟨.int, 4⟩, [.int 4 1, .int 4 2, .int 4 3], [3]⟩) =
      (.sym "q" ⟨.int, 4⟩ 0, [elementalConformabilityMsg]) :=
  c10_elemental_conformance.1 _ _ _ _ _ (by decide) (by decide) (by decide)

/-! ## Monotonicity, stability and idempotence (C5) -/


theorem FRes.le_rfl {α : Type} {x : FRes α} : x.le x := Or.inr rfl

theorem FRes.out_le {α : Type} {x : FRes α} : (FRes.out : FRes α).le x :=
  Or.inl rfl

theorem FRes.bind_le {α β : Type} {x x' : FRes α} {f f' : α → FRes β}
    (hx : x.le x') (hf : ∀ a, (f a).le (f' a)) : (x.bind f).le (x'.bind f') := by
  rcases hx with hx | hx
  · subst hx
    exact Or.inl rfl
  · rw [hx]
    cases x with
    | done a m =>
        rcases hf a with h | h
        · left
          simp only [FRes.bind, h]
        · right
          simp only [FRes.bind, h]
    | die => exact Or.inr rfl
    | out => exact Or.inl rfl

theorem mono_all : ∀ n : Nat,
    (∀ ctx e, (foldF n ctx e).le (foldF (n + 1) ctx e)) ∧
      (∀ ctx es, (foldList n ctx es).le (foldList (n + 1) ctx es)) ∧
      (∀ ctx f xs ys, (zipMapF n ctx f xs ys).le (zipMapF (n + 1) ctx f xs ys)) ∧
      (∀ ctx vals, (walkVals n ctx vals).le (walkVals (n + 1) ctx vals)) ∧
      (∀ ctx v, (walkVal n ctx v).le (walkVal (n + 1) ctx v)) ∧
      (∀ ctx name js body,
        (walkIter n ctx name js body).le (walkIter (n + 1) ctx name js body)) ∧
      (∀ ctx ty elems shp,
        (fromArrayCtor n ctx ty elems shp).le
          (fromArrayCtor (n + 1) ctx ty elems shp)) ∧
      (∀ sh, (asConstExtentsF n sh).le (asConstExtentsF (n + 1) sh)) ∧
      (∀ ctx ty f x, (applyElem1 n ctx ty f x).le (applyElem1 (n + 1) ctx ty f x)) ∧
      (∀ ctx ty f l r,
        (applyElem2 n ctx ty f l r).le (applyElem2 (n + 1) ctx ty f l r)) := by
  intro n
  induction n with
  | zero =>
      refine ⟨?_, ?_, ?_, ?_, ?_, ?_, ?_, ?_, ?_, ?_⟩ <;>
        intros <;> exact FRes.out_le
  | succ n ih =>
      obtain ⟨ihF, ihL, ihZ, ihWs, ihW, ihI, ihFA, ihA, ih1, ih2⟩ := ih
      refine ⟨?_, ?_, ?_, ?_, ?_, ?_, ?_, ?_, ?_, ?_⟩
      · -- foldF
        intro ctx e
        cases e with
        | const c => exact FRes.le_rfl
        | sym name ty r => exact FRes.le_rfl
        | iDoIndex name => exact FRes.le_rfl
        | paren x => exact FRes.bind_le (ihF ctx x) (fun _ => FRes.le_rfl)
        | neg x =>
            exact FRes.bind_le (ihF ctx x) (fun x' =>
              FRes.bind_le (ih1 ctx _ _ x') (fun _ => FRes.le_rfl))
        | add a b =>
            exact FRes.bind_le (ihF ctx a) (fun a' =>
              FRes.bind_le (ihF ctx b) (fun b' =>
                FRes.bind_le (ih2 ctx _ _ a' b') (fun _ => FRes.le_rfl)))
        | mul a b =>
            exact FRes.bind_le (ihF ctx a) (fun a' =>
              FRes.bind_le (ihF ctx b) (fun b' =>
                FRes.bind_le (ih2 ctx _ _ a' b') (fun _ => FRes.le_rfl)))
        | extremum ord a b =>
            exact FRes.bind_le (ihF ctx a) (fun a' =>
              FRes.bind_le (ihF ctx b) (fun b' =>
                FRes.bind_le (ih2 ctx _ _ a' b') (fun _ => FRes.le_rfl)))
        | conv k x =>
            exact FRes.bind_le (ihF ctx x) (fun x' =>
              FRes.bind_le (ih1 ctx _ _ x') (fun _ => FRes.le_rfl))
        | substr base kind lo up =>
            refine FRes.bind_le (ihF ctx lo) (fun lo' =>
              FRes.bind_le (ihF ctx up) (fun up' => ?_))
            cases substringExtract base kind lo' up' with
            | some c => exact FRes.le_rfl
            | none =>
                exact FRes.bind_le (ihF ctx _) (fun _ => FRes.le_rfl)
        | arrayCtor ty vals =>
            exact FRes.bind_le (ihWs ctx vals) (fun _ => FRes.le_rfl)
        | funcRef name k args =>
            refine FRes.bind_le (ihL ctx args) (fun args' => ?_)
            by_cases hs : isShiftGroupName name = true
            · simp only [if_pos hs]
              match args' with
              | [] => exact FRes.le_rfl
              | [x] => exact FRes.le_rfl
              | x :: nArg :: y :: rest => exact FRes.le_rfl
              | [x, nArg] =>
                  refine FRes.bind_le ?_ (fun nArg' => FRes.le_rfl)
                  by_cases hc : ((getType nArg).cat == TyCat.int &&
                      decide ((getType nArg).kind ≠ 4)) = true
                  · simp only [if_pos hc]
                    exact ihF ctx _
                  · simp only [if_neg hc]
                    exact FRes.le_rfl
            · simp only [if_neg hs]
              by_cases hn : (name == "size") = true
              · simp only [if_pos hn]
                split
                · split
                  · split
                    · exact FRes.bind_le (ihF ctx _) (fun _ => FRes.le_rfl)
                    · exact FRes.le_rfl
                  · exact FRes.le_rfl
                · split
                  · split
                    · split
                      · split
                        · exact FRes.bind_le (ihF ctx _)
                            (fun _ => FRes.le_rfl)
                        · exact FRes.le_rfl
                      · exact FRes.le_rfl
                    · exact FRes.le_rfl
                  · exact FRes.le_rfl
                · exact FRes.le_rfl
              · simp only [if_neg hn]
                exact FRes.le_rfl
      · -- foldList
        intro ctx es
        cases es with
        | nil => exact FRes.le_rfl
        | cons e rest =>
            exact FRes.bind_le (ihF ctx e) (fun _ =>
              FRes.bind_le (ihL ctx rest) (fun _ => FRes.le_rfl))
      · -- zipMapF
        intro ctx f xs ys
        cases xs with
        | nil => exact FRes.le_rfl
        | cons x xs' =>
            cases ys with
            | nil => exact FRes.le_rfl
            | cons y ys' =>
                exact FRes.bind_le (ihF ctx _) (fun _ =>
                  FRes.bind_le (ihZ ctx f xs' ys') (fun _ => FRes.le_rfl))
      · -- walkVals
        intro ctx vals
        cases vals with
        | nil => exact FRes.le_rfl
        | cons v vs =>
            refine FRes.bind_le (ihW ctx v) (fun o => ?_)
            cases o with
            | none => exact FRes.le_rfl
            | some xs =>
                exact FRes.bind_le (ihWs ctx vs) (fun _ => FRes.le_rfl)
      · -- walkVal
        intro ctx v
        cases v with
        | expr e => exact FRes.bind_le (ihF ctx e) (fun _ => FRes.le_rfl)
        | impliedDo name lo up st body =>
            refine FRes.bind_le (ihF ctx lo) (fun lo' =>
              FRes.bind_le (ihF ctx up) (fun up' =>
                FRes.bind_le (ihF ctx st) (fun st' => ?_)))
            cases toInt64 lo' with
            | none => exact FRes.le_rfl
            | some a =>
                cases toInt64 up' with
                | none => exact FRes.le_rfl
                | some b =>
                    cases toInt64 st' with
                    | none => exact FRes.le_rfl
                    | some s =>
                        by_cases hz : s = 0
                        · simp only [if_pos hz]
                          exact FRes.le_rfl
                        · simp only [if_neg hz]
                          exact ihI ctx name _ body
      · -- walkIter
        intro ctx name js body
        cases js with
        | nil => exact FRes.le_rfl
        | cons j js' =>
            exact FRes.bind_le (ihWs _ body) (fun _ =>
              FRes.bind_le (ihI ctx name js' body) (fun _ => FRes.le_rfl))
      · -- fromArrayCtor
        intro ctx ty elems shp
        refine FRes.bind_le (ihF ctx _) (fun res => ?_)
        cases shp with
        | none => exact FRes.le_rfl
        | some s =>
            cases res
            all_goals dsimp only
            all_goals
              first
                | exact FRes.le_rfl
                | (split <;>
                    first
                      | exact FRes.le_rfl
                      | exact FRes.bind_le (ihA _) (fun o => FRes.le_rfl))
      · -- asConstExtentsF
        intro sh
        cases sh with
        | nil => exact FRes.le_rfl
        | cons o rest =>
            cases o with
            | none => exact FRes.le_rfl
            | some e =>
                rcases ihF ⟨[]⟩ e with h | h
                · left
                  simp only [asConstExtentsF, h]
                · simp only [asConstExtentsF, h]
                  cases hfe : foldF n ⟨[]⟩ e with
                  | done e' m =>
                      dsimp only
                      split
                      · exact FRes.bind_le (ihA rest) (fun o => FRes.le_rfl)
                      · exact FRes.le_rfl
                  | die => exact FRes.le_rfl
                  | out => exact FRes.le_rfl
      · -- applyElem1
        intro ctx ty f x
        simp only [applyElem1]
        by_cases hr : 0 < rank x
        · simp only [if_pos hr]
          cases getShape x with
          | none => exact FRes.le_rfl
          | some shp =>
              cases asFlat x with
              | none => exact FRes.le_rfl
              | some xs =>
                  exact FRes.bind_le (ihL ctx _) (fun pushed =>
                    FRes.bind_le (ihA shp) (fun extOpt =>
                      FRes.bind_le (ihFA ctx ty pushed extOpt)
                        (fun res => FRes.le_rfl)))
        · simp only [if_neg hr]
          exact FRes.le_rfl
      · -- applyElem2
        intro ctx ty f l r
        simp only [applyElem2]
        by_cases hl : 0 < rank l
        · simp only [if_pos hl]
          cases getShape l with
          | none => exact FRes.le_rfl
          | some lshape =>
              cases asFlat l with
              | none => exact FRes.le_rfl
              | some ls =>
                  by_cases hr : 0 < rank r
                  · simp only [if_pos hr]
                    cases getShape r with
                    | none => exact FRes.le_rfl
                    | some rshape =>
                        cases asFlat r with
                        | none => exact FRes.le_rfl
                        | some rs =>
                            exact FRes.bind_le FRes.le_rfl (fun _ =>
                              FRes.bind_le (ihZ ctx f ls rs) (fun pushed =>
                                FRes.bind_le (ihA lshape) (fun extOpt =>
                                  FRes.bind_le (ihFA ctx ty pushed extOpt)
                                    (fun res => FRes.le_rfl))))
                  · simp only [if_neg hr]
                    by_cases he : isExpandableScalar r = true
                    · simp only [if_pos he]
                      exact FRes.bind_le (ihL ctx _) (fun pushed =>
                        FRes.bind_le (ihA lshape) (fun extOpt =>
                          FRes.bind_le (ihFA ctx ty pushed extOpt)
                            (fun res => FRes.le_rfl)))
                    · simp only [if_neg he]
                      exact FRes.le_rfl
        · simp only [if_neg hl]
          by_cases h2 : (decide (0 < rank r) && isExpandableScalar l) = true
          · simp only [if_pos h2]
            cases getShape r with
            | none => exact FRes.le_rfl
            | some rshape =>
                cases asFlat r with
                | none => exact FRes.le_rfl
                | some rs =>
                    exact FRes.bind_le (ihL ctx _) (fun pushed =>
                      FRes.bind_le (ihA rshape) (fun extOpt =>
                        FRes.bind_le (ihFA ctx ty pushed extOpt)
                          (fun res => FRes.le_rfl)))
          · simp only [if_neg h2]
            exact FRes.le_rfl



theorem foldF_iDoIndex_eq (n : Nat) (ctx : FoldingContext) (name : String) :
    foldF (n + 1) ctx (.iDoIndex name) =
      match ctx.getImpliedDo name with
      | some v => .done (i8const v) []
      | none => .done (.iDoIndex name) [] := rfl

theorem foldF_paren_eq (n : Nat) (ctx : FoldingContext) (x : Expr) :
    foldF (n + 1) ctx (.paren x) = (foldF n ctx x).bind parenK := rfl

theorem foldF_neg_eq (n : Nat) (ctx : FoldingContext) (x : Expr) :
    foldF (n + 1) ctx (.neg x) = (foldF n ctx x).bind (negK n ctx) := rfl

theorem foldF_add_eq (n : Nat) (ctx : FoldingContext) (a b : Expr) :
    foldF (n + 1) ctx (.add a b) =
      (foldF n ctx a).bind fun a' =>
        (foldF n ctx b).bind fun b' => addK n ctx a' b' := rfl

theorem foldF_mul_eq (n : Nat) (ctx : FoldingContext) (a b : Expr) :
    foldF (n + 1) ctx (.mul a b) =
      (foldF n ctx a).bind fun a' =>
        (foldF n ctx b).bind fun b' => mulK n ctx a' b' := rfl

theorem foldF_extremum_eq (n : Nat) (ctx : FoldingContext) (ord : Ordering)
    (a b : Expr) :
    foldF (n + 1) ctx (.extremum ord a b) =
      (foldF n ctx a).bind fun a' =>
        (foldF n ctx b).bind fun b' => extK n ctx ord a' b' := rfl

theorem foldF_conv_eq (n : Nat) (ctx : FoldingContext) (k : Nat) (x : Expr) :
    foldF (n + 1) ctx (.conv k x) = (foldF n ctx x).bind (convK n ctx k) := rfl

theorem foldF_substr_eq (n : Nat) (ctx : FoldingContext) (base : SubBase)
    (kind : Nat) (lo up : Expr) :
    foldF (n + 1) ctx (.substr base kind lo up) =
      (foldF n ctx lo).bind fun lo' =>
        (foldF n ctx up).bind fun up' => substrK n ctx base kind lo' up' := rfl

theorem foldF_arrayCtor_eq (n : Nat) (ctx : FoldingContext) (ty : DynType)
    (vals : List ACValue) :
    foldF (n + 1) ctx (.arrayCtor ty vals) =
      (walkVals n ctx vals).bind (acK ty vals) := rfl

theorem foldF_funcRef_eq (n : Nat) (ctx : FoldingContext) (name : String)
    (k : Nat) (args : List Expr) :
    foldF (n + 1) ctx (.funcRef name k args) =
      (foldList n ctx args).bind (frK n ctx name k) := rfl



/-- A fuel-indexed computation that only improves with fuel keeps a
`done` result, with the same diagnostics, at every larger fuel. -/
theorem FRes.step_stable {α : Type} {g : Nat → FRes α}
    (hstep : ∀ m, (g m).le (g (m + 1))) {n N : Nat} (hle : n ≤ N)
    {v : α} {mv : List Msg} (h : g n = .done v mv) : g N = .done v mv := by
  induction N, hle using Nat.le_induction with
  | base => exact h
  | succ N hle ih =>
      rcases hstep N with hout | heq
      · rw [ih] at hout
        cases hout
      · rw [heq, ih]

theorem foldF_step (n : Nat) (ctx : FoldingContext) (e : Expr) :
    (foldF n ctx e).le (foldF (n + 1) ctx e) := (mono_all n).1 ctx e

theorem foldList_step (n : Nat) (ctx : FoldingContext) (es : List Expr) :
    (foldList n ctx es).le (foldList (n + 1) ctx es) :=
  (mono_all n).2.1 ctx es

theorem walkVals_step (n : Nat) (ctx : FoldingContext) (vals : List ACValue) :
    (walkVals n ctx vals).le (walkVals (n + 1) ctx vals) :=
  (mono_all n).2.2.2.1 ctx vals

theorem applyElem1_step (n : Nat) (ctx : FoldingContext) (ty : DynType)
    (f : Expr → Expr) (x : Expr) :
    (applyElem1 n ctx ty f x).le (applyElem1 (n + 1) ctx ty f x) :=
  (mono_all n).2.2.2.2.2.2.2.2.1 ctx ty f x

theorem applyElem2_step (n : Nat) (ctx : FoldingContext) (ty : DynType)
    (f : Expr → Expr → Expr) (l r : Expr) :
    (applyElem2 n ctx ty f l r).le (applyElem2 (n + 1) ctx ty f l r) :=
  (mono_all n).2.2.2.2.2.2.2.2.2 ctx ty f l r

theorem foldF_stable {n N : Nat} {ctx : FoldingContext} {e r : Expr}
    {m : List Msg} (h : foldF n ctx e = .done r m) (hle : n ≤ N) :
    foldF N ctx e = .done r m :=
  FRes.step_stable (fun m' => foldF_step m' ctx e) hle h

theorem foldList_stable {n N : Nat} {ctx : FoldingContext} {es rs : List Expr}
    {m : List Msg} (h : foldList n ctx es = .done rs m) (hle : n ≤ N) :
    foldList N ctx es = .done rs m :=
  FRes.step_stable (fun m' => foldList_step m' ctx es) hle h

theorem walkVals_stable {n N : Nat} {ctx : FoldingContext}
    {vals : List ACValue} {w : Option (List Scal)} {m : List Msg}
    (h : walkVals n ctx vals = .done w m) (hle : n ≤ N) :
    walkVals N ctx vals = .done w m :=
  FRes.step_stable (fun m' => walkVals_step m' ctx vals) hle h

theorem applyElem1_stable {n N : Nat} {ctx : FoldingContext} {ty : DynType}
    {f : Expr → Expr} {x : Expr} {o : Option Expr} {m : List Msg}
    (h : applyElem1 n ctx ty f x = .done o m) (hle : n ≤ N) :
    applyElem1 N ctx ty f x = .done o m :=
  FRes.step_stable (fun m' => applyElem1_step m' ctx ty f x) hle h

theorem applyElem2_stable {n N : Nat} {ctx : FoldingContext} {ty : DynType}
    {f : Expr → Expr → Expr} {l r : Expr} {o : Option Expr} {m : List Msg}
    (h : applyElem2 n ctx ty f l r = .done o m) (hle : n ≤ N) :
    applyElem2 N ctx ty f l r = .done o m :=
  FRes.step_stable (fun m' => applyElem2_step m' ctx ty f l r) hle h

theorem negK_step (n : Nat) (ctx : FoldingContext) (x' : Expr) :
    (negK n ctx x').le (negK (n + 1) ctx x') :=
  FRes.bind_le (applyElem1_step n ctx _ _ x') (fun _ => FRes.le_rfl)

theorem addK_step (n : Nat) (ctx : FoldingContext) (a' b' : Expr) :
    (addK n ctx a' b').le (addK (n + 1) ctx a' b') :=
  FRes.bind_le (applyElem2_step n ctx _ _ a' b') (fun _ => FRes.le_rfl)

theorem mulK_step (n : Nat) (ctx : FoldingContext) (a' b' : Expr) :
    (mulK n ctx a' b').le (mulK (n + 1) ctx a' b') :=
  FRes.bind_le (applyElem2_step n ctx _ _ a' b') (fun _ => FRes.le_rfl)

theorem extK_step (n : Nat) (ctx : FoldingContext) (ord : Ordering)
    (a' b' : Expr) : (extK n ctx ord a' b').le (extK (n + 1) ctx ord a' b') :=
  FRes.bind_le (applyElem2_step n ctx _ _ a' b') (fun _ => FRes.le_rfl)

theorem convK_step (n : Nat) (ctx : FoldingContext) (k : Nat) (x' : Expr) :
    (convK n ctx k x').le (convK (n + 1) ctx k x') :=
  FRes.bind_le (applyElem1_step n ctx _ _ x') (fun _ => FRes.le_rfl)

theorem substrK_step (n : Nat) (ctx : FoldingContext) (base : SubBase)
    (kind : Nat) (lo' up' : Expr) :
    (substrK n ctx base kind lo' up').le (substrK (n + 1) ctx base kind lo' up') := by
  unfold substrK
  cases substringExtract base kind lo' up' with
  | some c => exact FRes.le_rfl
  | none => exact FRes.bind_le (foldF_step n ctx _) (fun _ => FRes.le_rfl)

theorem frK_step (n : Nat) (ctx : FoldingContext) (name : String) (k : Nat)
    (as : List Expr) : (frK n ctx name k as).le (frK (n + 1) ctx name k as) := by
  unfold frK
  by_cases hs : isShiftGroupName name = true
  · simp only [if_pos hs]
    split
    · refine FRes.bind_le ?_ (fun nArg' => FRes.le_rfl)
      split
      · exact foldF_step n ctx _
      · exact FRes.le_rfl
    · exact FRes.le_rfl
  · simp only [if_neg hs]
    by_cases hn : (name == "size") = true
    · simp only [if_pos hn]
      split
      · split
        · split
          · exact FRes.bind_le (foldF_step n ctx _) (fun _ => FRes.le_rfl)
          · exact FRes.le_rfl
        · exact FRes.le_rfl
      · split
        · split
          · split
            · split
              · exact FRes.bind_le (foldF_step n ctx _) (fun _ => FRes.le_rfl)
              · exact FRes.le_rfl
            · exact FRes.le_rfl
          · exact FRes.le_rfl
        · exact FRes.le_rfl
      · exact FRes.le_rfl
    · simp only [if_neg hn]
      exact FRes.le_rfl

theorem negK_stable {n N : Nat} {ctx : FoldingContext} {x' r : Expr}
    {m : List Msg} (h : negK n ctx x' = .done r m) (hle : n ≤ N) :
    negK N ctx x' = .done r m :=
  FRes.step_stable (fun m' => negK_step m' ctx x') hle h

theorem addK_stable {n N : Nat} {ctx : FoldingContext} {a' b' r : Expr}
    {m : List Msg} (h : addK n ctx a' b' = .done r m) (hle : n ≤ N) :
    addK N ctx a' b' = .done r m :=
  FRes.step_stable (fun m' => addK_step m' ctx a' b') hle h

theorem mulK_stable {n N : Nat} {ctx : FoldingContext} {a' b' r : Expr}
    {m : List Msg} (h : mulK n ctx a' b' = .done r m) (hle : n ≤ N) :
    mulK N ctx a' b' = .done r m :=
  FRes.step_stable (fun m' => mulK_step m' ctx a' b') hle h

theorem extK_stable {n N : Nat} {ctx : FoldingContext} {ord : Ordering}
    {a' b' r : Expr} {m : List Msg} (h : extK n ctx ord a' b' = .done r m)
    (hle : n ≤ N) : extK N ctx ord a' b' = .done r m :=
  FRes.step_stable (fun m' => extK_step m' ctx ord a' b') hle h

theorem convK_stable {n N : Nat} {ctx : FoldingContext} {k : Nat} {x' r : Expr}
    {m : List Msg} (h : convK n ctx k x' = .done r m) (hle : n ≤ N) :
    convK N ctx k x' = .done r m :=
  FRes.step_stable (fun m' => convK_step m' ctx k x') hle h

theorem substrK_stable {n N : Nat} {ctx : FoldingContext} {base : SubBase}
    {kind : Nat} {lo' up' r : Expr} {m : List Msg}
    (h : substrK n ctx base kind lo' up' = .done r m) (hle : n ≤ N) :
    substrK N ctx base kind lo' up' = .done r m :=
  FRes.step_stable (fun m' => substrK_step m' ctx base kind lo' up') hle h

theorem frK_stable {n N : Nat} {ctx : FoldingContext} {name : String}
    {k : Nat} {as : List Expr} {r : Expr} {m : List Msg}
    (h : frK n ctx name k as = .done r m) (hle : n ≤ N) :
    frK N ctx name k as = .done r m :=
  FRes.step_stable (fun m' => frK_step m' ctx name k as) hle h

/-- Inverting a successful `bind`. -/
theorem FRes.bind_eq_done {α β : Type} {x : FRes α} {f : α → FRes β}
    {b : β} {mb : List Msg} (h : x.bind f = .done b mb) :
    ∃ a ma mb', x = .done a ma ∧ f a = .done b mb' ∧ mb = ma ++ mb' := by
  cases x with
  | done a ma =>
      cases hf : f a with
      | done b' mb' =>
          simp only [FRes.bind, hf] at h
          injection h with h1 h2
          subst h1
          subst h2
          exact ⟨a, ma, mb', rfl, hf, rfl⟩
      | die => simp [FRes.bind, hf] at h
      | out => simp [FRes.bind, hf] at h
  | die => simp [FRes.bind] at h
  | out => simp [FRes.bind] at h

/-- Evaluating a `bind` of a `done`. -/
theorem FRes.bind_done_eval {α β : Type} {f : α → FRes β} {a : α}
    {ma : List Msg} {b : β} {mb : List Msg} (h : f a = .done b mb) :
    (FRes.done a ma).bind f = .done b (ma ++ mb) := by
  simp only [FRes.bind, h]



theorem foldList_cons_eq (n : Nat) (ctx : FoldingContext) (e : Expr)
    (es : List Expr) :
    foldList (n + 1) ctx (e :: es) =
      (foldF n ctx e).bind fun e' =>
        (foldList n ctx es).bind fun es' => .done (e' :: es') [] := rfl

theorem idemSafeList_iff {l : List Expr} :
    idemSafeList l = true ↔ ∀ e ∈ l, idemSafe e = true := by
  induction l with
  | nil => simp [idemSafeList]
  | cons e es ih => simp [idemSafeList, Bool.and_eq_true, ih]

theorem idemSafeVals_map_expr (l : List Expr) :
    idemSafeVals (l.map .expr) = idemSafeList l := by
  induction l with
  | nil => rfl
  | cons e es ih => simp [idemSafeVals, idemSafeVal, idemSafeList, ih]

theorem allExprVals_safe : ∀ (vals : List ACValue) {es : List Expr},
    idemSafeVals vals = true → allExprVals vals = some es →
    ∀ e ∈ es, idemSafe e = true
  | [], es, _, h, e, he => by
      simp only [allExprVals] at h
      cases h
      simp at he
  | .expr e0 :: vs, es, hs, h, e, he => by
      simp only [allExprVals, Option.map_eq_some'] at h
      obtain ⟨es', hvs, rfl⟩ := h
      simp only [idemSafeVals, idemSafeVal, Bool.and_eq_true] at hs
      rcases List.mem_cons.mp he with rfl | he'
      · exact hs.1
      · exact allExprVals_safe vs hs.2 hvs e he'
  | .impliedDo nm lo up st body :: vs, es, _, h, e, he => by
      simp [allExprVals] at h

theorem asFlat_safe : ∀ (x : Expr) {xs : List Expr}, idemSafe x = true →
    asFlat x = some xs → ∀ e ∈ xs, idemSafe e = true
  | .const c, xs, _, h, e, he => by
      simp only [asFlat] at h
      cases h
      simp only [List.mem_map] at he
      obtain ⟨s, _, rfl⟩ := he
      rfl
  | .arrayCtor ty vals, xs, hs, h, e, he =>
      allExprVals_safe vals (by simpa [idemSafe] using hs)
        (by simpa [asFlat] using h) e he
  | .paren x, xs, hs, h, e, he =>
      asFlat_safe x (by simpa [idemSafe] using hs)
        (by simpa [asFlat] using h) e he
  | .sym _ _ _, xs, _, h, _, _ => by simp [asFlat] at h
  | .substr _ _ _ _, xs, _, h, _, _ => by simp [asFlat] at h
  | .neg _, xs, _, h, _, _ => by simp [asFlat] at h
  | .add _ _, xs, _, h, _, _ => by simp [asFlat] at h
  | .mul _ _, xs, _, h, _, _ => by simp [asFlat] at h
  | .extremum _ _ _, xs, _, h, _, _ => by simp [asFlat] at h
  | .conv _ _, xs, _, h, _, _ => by simp [asFlat] at h
  | .iDoIndex _, xs, _, h, _, _ => by simp [asFlat] at h
  | .funcRef _ _ _, xs, _, h, _, _ => by simp [asFlat] at h

theorem getSize_go_safe : ∀ (sh : List (Option Expr)) (acc : Expr) {r : Expr},
    idemSafe acc = true → (∀ x, some x ∈ sh → idemSafe x = true) →
    getSize.go acc sh = some r → idemSafe r = true
  | [], acc, r, hacc, _, h => by
      simp only [getSize.go] at h
      cases h
      exact hacc
  | some e :: rest, acc, r, hacc, hsh, h =>
      getSize_go_safe rest (.mul acc e)
        (by simp [idemSafe, hacc, hsh e (by simp)])
        (fun x hx => hsh x (by simp [hx]))
        (by simpa [getSize.go] using h)
  | none :: rest, acc, r, _, _, h => by simp [getSize.go] at h

theorem countTrips_safe {lo up st ct : Expr}
    (h : countTrips lo up st = some ct) : idemSafe ct = true := by
  unfold countTrips at h
  cases h1 : toInt64 lo with
  | none => rw [h1] at h; simp at h
  | some a =>
      rw [h1] at h
      cases h2 : toInt64 up with
      | none => rw [h2] at h; simp at h
      | some b =>
          rw [h2] at h
          cases h3 : toInt64 st with
          | none => rw [h3] at h; simp at h
          | some s =>
              rw [h3] at h
              injection h with h4
              subst h4
              rfl

mutual

theorem gs_safe : ∀ (e : Expr) (sh : List (Option Expr)),
    getShape e = some sh → ∀ x, some x ∈ sh → idemSafe x = true
  | .const c, sh, h, x, hx => by
      simp only [getShape] at h
      cases h
      simp only [List.mem_map] at hx
      obtain ⟨n, _, hn⟩ := hx
      injection hn with hn'
      rw [← hn']
      rfl
  | .sym nm ty r, sh, h, x, hx => by
      simp only [getShape] at h
      by_cases hr : r = 0
      · rw [if_pos hr] at h
        cases h
        simp at hx
      · rw [if_neg hr] at h
        cases h
  | .substr _ _ _ _, sh, h, x, hx => by
      simp only [getShape] at h
      cases h
      simp at hx
  | .paren e, sh, h, x, hx => gs_safe e sh (by simpa [getShape] using h) x hx
  | .neg e, sh, h, x, hx => gs_safe e sh (by simpa [getShape] using h) x hx
  | .conv k e, sh, h, x, hx => gs_safe e sh (by simpa [getShape] using h) x hx
  | .add a b, sh, h, x, hx => by
      simp only [getShape] at h
      by_cases hr : rank b > 0
      · rw [if_pos hr] at h
        exact gs_safe b sh h x hx
      · rw [if_neg hr] at h
        exact gs_safe a sh h x hx
  | .mul a b, sh, h, x, hx => by
      simp only [getShape] at h
      by_cases hr : rank b > 0
      · rw [if_pos hr] at h
        exact gs_safe b sh h x hx
      · rw [if_neg hr] at h
        exact gs_safe a sh h x hx
  | .extremum o a b, sh, h, x, hx => by
      simp only [getShape] at h
      by_cases hr : rank b > 0
      · rw [if_pos hr] at h
        exact gs_safe b sh h x hx
      · rw [if_neg hr] at h
        exact gs_safe a sh h x hx
  | .iDoIndex _, sh, h, x, hx => by
      simp only [getShape] at h
      cases h
      simp at hx
  | .funcRef _ _ _, sh, h, x, hx => by
      simp only [getShape] at h
      cases h
      simp at hx
  | .arrayCtor ty vals, sh, h, x, hx => by
      simp only [getShape] at h
      cases h
      simp only [List.mem_singleton] at hx
      exact gev_safe vals (i8const 0) rfl hx.symm

theorem gev_safe : ∀ (vals : List ACValue) (acc : Expr) {r : Expr},
    idemSafe acc = true → getExtentVals acc vals = some r →
    idemSafe r = true
  | [], acc, r, hacc, h => by
      simp only [getExtentVals] at h
      cases h
      exact hacc
  | v :: vs, acc, r, hacc, h => by
      simp only [getExtentVals] at h
      cases hv : getExtentVal v with
      | none => rw [hv] at h; simp at h
      | some nv =>
          rw [hv] at h
          exact gev_safe vs (.add acc nv)
            (by simp [idemSafe, hacc, gv_safe v hv]) h

theorem gv_safe : ∀ (v : ACValue) {r : Expr},
    getExtentVal v = some r → idemSafe r = true
  | .expr e, r, h => by
      simp only [getExtentVal] at h
      cases hg : getShape e with
      | none => rw [hg] at h; simp at h
      | some sh0 =>
          rw [hg] at h
          exact getSize_go_safe sh0 (i8const 1) rfl
            (fun x hx => gs_safe e sh0 hg x hx) h
  | .impliedDo nm lo up st body, r, h => by
      simp only [getExtentVal] at h
      by_cases hc : (containsIdoIndex lo || containsIdoIndex up ||
          containsIdoIndex st) = true
      · rw [if_pos hc] at h
        cases h
      · rw [if_neg hc] at h
        cases hb : getExtentVals (i8const 0) body with
        | none => rw [hb] at h; simp at h
        | some nb =>
            rw [hb] at h
            cases hct : countTrips lo up st with
            | none => rw [hct] at h; simp at h
            | some ct =>
                rw [hct] at h
                injection h with h'
                rw [← h']
                simp [idemSafe, gev_safe body (i8const 0) rfl hb,
                  countTrips_safe hct]

end

theorem mulFold_safe : ∀ (l : List Expr) (acc : Expr),
    idemSafe acc = true → (∀ e ∈ l, idemSafe e = true) →
    idemSafe (l.foldl (fun p e => .mul p e) acc) = true
  | [], acc, ha, _ => ha
  | e :: es, acc, ha, hl =>
      mulFold_safe es (.mul acc e)
        (by simp [idemSafe, ha, hl e (by simp)])
        (fun x hx => hl x (by simp [hx]))

theorem allPresent_mem : ∀ {sh : List (Option Expr)} {exts : List Expr},
    allPresent sh = some exts → ∀ e ∈ exts, some e ∈ sh
  | [], exts, h, e, he => by
      simp only [allPresent] at h
      cases h
      simp at he
  | some x :: rest, exts, h, e, he => by
      simp only [allPresent, Option.map_eq_some'] at h
      obtain ⟨es', hrest, rfl⟩ := h
      rcases List.mem_cons.mp he with rfl | he'
      · exact List.mem_cons_self _ _
      · exact List.mem_cons_of_mem _ (allPresent_mem hrest e he')
  | none :: rest, exts, h, e, he => by simp [allPresent] at h

theorem idemSafe_convertToType {k : Nat} {e : Expr}
    (h : idemSafe e = true) : idemSafe (convertToType k e) = true := by
  unfold convertToType
  split
  · exact h
  · simpa [idemSafe]

theorem convertToType_eight (e : Expr) : convertToType 8 e = e := by
  simp [convertToType]

theorem shift_not_size {name : String}
    (h : isShiftGroupName name = true) : (name == "size") = false := by
  cases hb : name == "size" with
  | false => rfl
  | true =>
      have hname : name = "size" := by simpa using hb
      subst hname
      exact absurd h (by decide)

theorem scalarConst_mk (ty : DynType) (v : Scal) :
    scalarConst (.const ⟨ty, [v], []⟩) = some (ty, v) := rfl

theorem foldList_length : ∀ (es : List Expr) {n : Nat}
    {ctx : FoldingContext} {rs : List Expr} {m : List Msg},
    foldList n ctx es = .done rs m → rs.length = es.length := by
  intro es
  induction es with
  | nil =>
      intro n ctx rs m h
      match n with
      | 0 => simp [foldList] at h
      | n + 1 =>
          simp only [foldList] at h
          cases h
          rfl
  | cons e es ih =>
      intro n ctx rs m h
      match n with
      | 0 => simp [foldList] at h
      | n + 1 =>
          rw [foldList_cons_eq] at h
          obtain ⟨e', m1, m2, he, hrest, rfl⟩ := FRes.bind_eq_done h
          obtain ⟨es', m3, m4, hes, hdone, rfl⟩ := FRes.bind_eq_done hrest
          cases hdone
          simp [ih hes]

theorem foldList_build (ctx : FoldingContext) : ∀ (es : List Expr),
    (∀ e ∈ es, ∃ N m, foldF N ctx e = .done e m) →
    ∃ M mm, foldList M ctx es = .done es mm := by
  intro es
  induction es with
  | nil => exact fun _ => ⟨1, [], rfl⟩
  | cons e es ih =>
      intro h
      obtain ⟨N, me, hN⟩ := h e (by simp)
      obtain ⟨M, mm, hM⟩ := ih (fun x hx => h x (by simp [hx]))
      refine ⟨max N M + 1, me ++ (mm ++ []), ?_⟩
      rw [foldList_cons_eq, foldF_stable hN (le_max_left N M)]
      refine FRes.bind_done_eval ?_
      rw [foldList_stable hM (le_max_right N M)]
      exact FRes.bind_done_eval rfl



theorem fromArrayCtor_eq (n : Nat) (ctx : FoldingContext) (ty : DynType)
    (elems : List Expr) (shapeOpt : Option (List Int)) :
    fromArrayCtor (n + 1) ctx ty elems shapeOpt =
      (foldF n ctx (.arrayCtor ty (elems.map .expr))).bind
        (faK n shapeOpt) := rfl

theorem foldF_arrayCtor_inv {n : Nat} {ctx : FoldingContext} {ty : DynType}
    {vals : List ACValue} {res : Expr} {m : List Msg}
    (h : foldF (n + 1) ctx (.arrayCtor ty vals) = .done res m) :
    (∃ el mw, walkVals n ctx vals = .done (some el) mw ∧
        res = .const ⟨ty, el, [(el.length : Int)]⟩ ∧ m = mw ++ []) ∨
      (∃ mw, walkVals n ctx vals = .done none mw ∧
        res = .arrayCtor ty vals ∧ m = mw ++ []) := by
  rw [foldF_arrayCtor_eq] at h
  obtain ⟨w, mw, m2, hw, hacK, rfl⟩ := FRes.bind_eq_done h
  cases w with
  | some el =>
      simp only [acK] at hacK
      injection hacK with h3 h4
      exact Or.inl ⟨el, mw, hw, h3.symm, by rw [h4]⟩
  | none =>
      simp only [acK] at hacK
      injection hacK with h3 h4
      exact Or.inr ⟨mw, hw, h3.symm, by rw [h4]⟩

theorem fromArrayCtor_done : ∀ {n : Nat} {ctx : FoldingContext}
    {ty : DynType} {elems : List Expr} {shapeOpt : Option (List Int)}
    {r : Expr} {m : List Msg},
    fromArrayCtor n ctx ty elems shapeOpt = .done r m →
    getType r = ty ∧ (∃ N' m', foldF N' ctx r = .done r m') ∧
      (idemSafeList elems = true → idemSafe r = true) := by
  intro n ctx ty elems shapeOpt r m h
  match n with
  | 0 => simp [fromArrayCtor] at h
  | n0 + 1 =>
      rw [fromArrayCtor_eq] at h
      obtain ⟨res, m1, m2, hres, hK, rfl⟩ := FRes.bind_eq_done h
      match n0, hres, hK with
      | n1 + 1, hres, hK =>
          rcases foldF_arrayCtor_inv hres with
            ⟨el, mw, hw, rfl, rfl⟩ | ⟨mw, hw, rfl, rfl⟩
          · -- the inner fold produced a constant
            cases shapeOpt with
            | none =>
                simp only [faK] at hK
                injection hK with h3 h4
                subst h3
                exact ⟨rfl, ⟨1, [], rfl⟩, fun _ => rfl⟩
            | some shp =>
                simp only [faK] at hK
                injection hK with h3 h4
                subst h3
                exact ⟨rfl, ⟨1, [], rfl⟩, fun _ => rfl⟩
          · -- the inner fold returned the constructor unchanged
            have hself : foldF (n1 + 1) ctx (.arrayCtor ty (elems.map .expr)) =
                .done (.arrayCtor ty (elems.map .expr)) (mw ++ []) := by
              rw [foldF_arrayCtor_eq, hw]
              exact FRes.bind_done_eval rfl
            have hsafe : idemSafeList elems = true →
                idemSafe (Expr.arrayCtor ty (elems.map .expr)) = true := by
              intro hl
              simpa [idemSafe, idemSafeVals_map_expr] using hl
            cases shapeOpt with
            | none =>
                simp only [faK] at hK
                injection hK with h3 h4
                subst h3
                exact ⟨rfl, ⟨n1 + 1, mw ++ [], hself⟩, hsafe⟩
            | some shp =>
                simp only [faK] at hK
                split at hK
                · cases hK
                · obtain ⟨exo, me, m4, hext, hcont, rfl⟩ :=
                    FRes.bind_eq_done hK
                  cases exo with
                  | none => dsimp only at hcont; cases hcont
                  | some ext =>
                      dsimp only at hcont
                      split at hcont
                      · injection hcont with h3 h4
                        subst h3
                        exact ⟨rfl, ⟨n1 + 1, mw ++ [], hself⟩, hsafe⟩
                      · cases hcont

theorem applyElem1_some_inv {n : Nat} {ctx : FoldingContext} {ty : DynType}
    {f : Expr → Expr} {x res : Expr} {m : List Msg}
    (h : applyElem1 (n + 1) ctx ty f x = .done (some res) m) :
    ∃ shp xs pushed exo m1 m2 m3, getShape x = some shp ∧
      asFlat x = some xs ∧
      foldList n ctx (xs.map f) = .done pushed m1 ∧
      asConstExtentsF n shp = .done exo m2 ∧
      fromArrayCtor n ctx ty pushed exo = .done res m3 := by
  simp only [applyElem1] at h
  split at h
  · split at h
    · split at h
      · obtain ⟨pushed, m1, mr, hpl, hrest, rfl⟩ := FRes.bind_eq_done h
        obtain ⟨exo, m2, mr2, hace, hrest2, rfl⟩ := FRes.bind_eq_done hrest
        obtain ⟨res', m3, m4, hfa, hfin, rfl⟩ := FRes.bind_eq_done hrest2
        injection hfin with h3 h4
        injection h3 with h5
        subst h5
        exact ⟨_, _, _, _, _, _, _, by assumption, by assumption, hpl, hace,
          hfa⟩
      · injection h with h3 h4
        cases h3
    · injection h with h3 h4
      cases h3
  · injection h with h3 h4
    cases h3

theorem applyElem2_some_inv {n : Nat} {ctx : FoldingContext} {ty : DynType}
    {f : Expr → Expr → Expr} {l r res : Expr} {m : List Msg}
    (h : applyElem2 (n + 1) ctx ty f l r = .done (some res) m) :
    ∃ pushed exo m2, fromArrayCtor n ctx ty pushed exo = .done res m2 ∧
      ((∃ ls rs m1, asFlat l = some ls ∧ asFlat r = some rs ∧
          zipMapF n ctx f ls rs = .done pushed m1) ∨
        (∃ ls m1, asFlat l = some ls ∧
          foldList n ctx (ls.map (fun a => f a r)) = .done pushed m1) ∨
        (∃ rs m1, asFlat r = some rs ∧
          foldList n ctx (rs.map (fun b => f l b)) = .done pushed m1)) := by
  simp only [applyElem2] at h
  split at h
  · split at h
    · split at h
      · split at h
        · split at h
          · split at h
            · obtain ⟨u, mu, mr0, hemit, hrest0, rfl⟩ := FRes.bind_eq_done h
              obtain ⟨pushed, m1, mr, hzip, hrest, rfl⟩ :=
                FRes.bind_eq_done hrest0
              obtain ⟨exo, m2, mr2, hace, hrest2, rfl⟩ :=
                FRes.bind_eq_done hrest
              obtain ⟨res', m3, m4, hfa, hfin, rfl⟩ := FRes.bind_eq_done hrest2
              injection hfin with h3 h4
              injection h3 with h5
              subst h5
              exact ⟨_, _, _, hfa,
                Or.inl ⟨_, _, _, by assumption, by assumption, hzip⟩⟩
            · injection h with h3 h4
              cases h3
          · injection h with h3 h4
            cases h3
        · split at h
          · obtain ⟨pushed, m1, mr, hpl, hrest, rfl⟩ := FRes.bind_eq_done h
            obtain ⟨exo, m2, mr2, hace, hrest2, rfl⟩ := FRes.bind_eq_done hrest
            obtain ⟨res', m3, m4, hfa, hfin, rfl⟩ := FRes.bind_eq_done hrest2
            injection hfin with h3 h4
            injection h3 with h5
            subst h5
            exact ⟨_, _, _, hfa, Or.inr (Or.inl ⟨_, _, by assumption, hpl⟩)⟩
          · injection h with h3 h4
            cases h3
      · injection h with h3 h4
        cases h3
    · injection h with h3 h4
      cases h3
  · split at h
    · split at h
      · split at h
        · obtain ⟨pushed, m1, mr, hpl, hrest, rfl⟩ := FRes.bind_eq_done h
          obtain ⟨exo, m2, mr2, hace, hrest2, rfl⟩ := FRes.bind_eq_done hrest
          obtain ⟨res', m3, m4, hfa, hfin, rfl⟩ := FRes.bind_eq_done hrest2
          injection hfin with h3 h4
          injection h3 with h5
          subst h5
          exact ⟨_, _, _, hfa, Or.inr (Or.inr ⟨_, _, by assumption, hpl⟩)⟩
        · injection h with h3 h4
          cases h3
      · injection h with h3 h4
        cases h3
    · injection h with h3 h4
      cases h3

/-- The result of folding a `Convert` to `Integer(k)` has that type. -/
theorem conv_output_type : ∀ {n : Nat} {ctx : FoldingContext} {k : Nat}
    {x z : Expr} {m : List Msg}, foldF n ctx (.conv k x) = .done z m →
    getType z = ⟨.int, k⟩ := by
  intro n ctx k x z m h
  match n with
  | 0 => simp [foldF] at h
  | n0 + 1 =>
      rw [foldF_conv_eq] at h
      obtain ⟨x', m1, m2, hx, hK, rfl⟩ := FRes.bind_eq_done h
      unfold convK at hK
      obtain ⟨o, ma, mb, h1, hcont, rfl⟩ := FRes.bind_eq_done hK
      cases o with
      | some res =>
          dsimp only at hcont
          injection hcont with h3 h4
          subst h3
          match n0, h1 with
          | n1 + 1, h1 =>
              obtain ⟨shp, xs, pushed, exo, ma1, ma2, ma3, hg, haf, hpl,
                hace, hfa⟩ := applyElem1_some_inv h1
              exact (fromArrayCtor_done hfa).1
      | none =>
          dsimp only at hcont
          split at hcont
          all_goals injection hcont with h3 h4
          all_goals subst h3
          all_goals rfl



theorem applyElem1_some_self {n : Nat} {ctx : FoldingContext} {ty : DynType}
    {f : Expr → Expr} {x res : Expr} {m : List Msg}
    (h : applyElem1 n ctx ty f x = .done (some res) m) :
    ∃ N' m', foldF N' ctx res = .done res m' := by
  match n, h with
  | 0, h => simp [applyElem1] at h
  | n1 + 1, h =>
      obtain ⟨shp, xs, pushed, exo, m1, m2, m3, hg, haf, hpl, hace, hfa⟩ :=
        applyElem1_some_inv h
      exact (fromArrayCtor_done hfa).2.1

theorem applyElem2_some_self {n : Nat} {ctx : FoldingContext} {ty : DynType}
    {f : Expr → Expr → Expr} {l r res : Expr} {m : List Msg}
    (h : applyElem2 n ctx ty f l r = .done (some res) m) :
    ∃ N' m', foldF N' ctx res = .done res m' := by
  match n, h with
  | 0, h => simp [applyElem2] at h
  | n1 + 1, h =>
      obtain ⟨pushed, exo, m2, hfa, _⟩ := applyElem2_some_inv h
      exact (fromArrayCtor_done hfa).2.1

theorem foldElemental2_fst (orig : Expr) (ty : DynType)
    (f : Scal → Scal → Scal) (a1 a2 : Expr) :
    (foldElemental2 orig ty f a1 a2).1 = orig ∨
      ∃ c, (foldElemental2 orig ty f a1 a2).1 = .const c := by
  unfold foldElemental2
  split
  · split
    · exact Or.inl rfl
    · exact Or.inr ⟨_, rfl⟩
  · exact Or.inl rfl



theorem shift_rebuild {ML : Nat} {ctx : FoldingContext} {name : String}
    {k : Nat} {x nArg' : Expr} {mm : List Msg}
    (hs : isShiftGroupName name = true)
    (hcond2 : ((getType nArg').cat == TyCat.int &&
      decide ((getType nArg').kind ≠ 4)) = false)
    {op : Nat → Int → Int → Int} (heqop : pickShiftOp name = some op)
    (hLB : foldList ML ctx [x, nArg'] = .done [x, nArg'] mm)
    (horig : (foldElemental2 (.funcRef name k [x, nArg']) ⟨.int, k⟩
        (fun i pos =>
          match i, pos with
          | .int _ v, .int _ p => .int k (op k v p)
          | _, _ => .int k 0) x nArg').1 = .funcRef name k [x, nArg']) :
    ∃ N m', foldF N ctx (.funcRef name k [x, nArg']) =
      .done (.funcRef name k [x, nArg']) m' := by
  refine ⟨ML + 1, mm ++ ([] ++ (foldElemental2 (.funcRef name k [x, nArg'])
    ⟨.int, k⟩ (fun i pos =>
      match i, pos with
      | .int _ v, .int _ p => .int k (op k v p)
      | _, _ => .int k 0) x nArg').2), ?_⟩
  rw [foldF_funcRef_eq, hLB]
  refine FRes.bind_done_eval ?_
  simp only [frK, if_pos hs]
  rw [if_neg (by simp only [hcond2]; decide)]
  refine FRes.bind_done_eval ?_
  simp only [heqop]
  rw [horig]

set_option maxHeartbeats 1000000 in
theorem idem_all : ∀ n : Nat,
    (∀ ctx e r m, idemSafe e = true → foldF n ctx e = .done r m →
      idemSafe r = true ∧ ∃ N m', foldF N ctx r = .done r m') ∧
      (∀ ctx es rs m, idemSafeList es = true → foldList n ctx es = .done rs m →
        idemSafeList rs = true ∧ ∀ x ∈ rs, ∃ N m', foldF N ctx x = .done x m') ∧
      (∀ ctx (f : Expr → Expr → Expr) xs ys ps m,
        (∀ a b, idemSafe a = true → idemSafe b = true →
          idemSafe (f a b) = true) →
        (∀ x ∈ xs, idemSafe x = true) → (∀ y ∈ ys, idemSafe y = true) →
        zipMapF n ctx f xs ys = .done ps m → ∀ p ∈ ps, idemSafe p = true) ∧
      (∀ ctx ty (f : Expr → Expr) x res m, idemSafe x = true →
        (∀ a, idemSafe a = true → idemSafe (f a) = true) →
        applyElem1 n ctx ty f x = .done (some res) m → idemSafe res = true) ∧
      (∀ ctx ty (f : Expr → Expr → Expr) l r res m, idemSafe l = true →
        idemSafe r = true →
        (∀ a b, idemSafe a = true → idemSafe b = true →
          idemSafe (f a b) = true) →
        applyElem2 n ctx ty f l r = .done (some res) m →
        idemSafe res = true) := by
  intro n
  induction n with
  | zero =>
      refine ⟨?_, ?_, ?_, ?_, ?_⟩
      · intro ctx e r m _ h
        simp [foldF] at h
      · intro ctx es rs m _ h
        simp [foldList] at h
      · intro ctx f xs ys ps m _ _ _ h
        simp [zipMapF] at h
      · intro ctx ty f x res m _ _ h
        simp [applyElem1] at h
      · intro ctx ty f l r res m _ _ _ h
        simp [applyElem2] at h
  | succ n ih =>
      obtain ⟨ihF, ihL, ihZ, ih1, ih2⟩ := ih
      refine ⟨?_, ?_, ?_, ?_, ?_⟩
      · -- foldF
        intro ctx e r m hsafe h
        cases e with
        | const c =>
            simp only [foldF] at h
            injection h with h1 h2
            subst h1
            exact ⟨rfl, 1, [], rfl⟩
        | sym nm ty rk =>
            simp only [foldF] at h
            injection h with h1 h2
            subst h1
            exact ⟨rfl, 1, [], rfl⟩
        | iDoIndex nm =>
            rw [foldF_iDoIndex_eq] at h
            split at h
            · injection h with h1 h2
              subst h1
              exact ⟨rfl, 1, [], rfl⟩
            · injection h with h1 h2
              subst h1
              rename_i heq
              refine ⟨rfl, 1, [], ?_⟩
              rw [foldF_iDoIndex_eq, heq]
        | paren x =>
            rw [foldF_paren_eq] at h
            obtain ⟨x', m1, m2, hx, hK, rfl⟩ := FRes.bind_eq_done h
            obtain ⟨hsx', Nx, mx, hxx⟩ :=
              ihF ctx x x' m1 (by simpa [idemSafe] using hsafe) hx
            unfold parenK at hK
            split at hK
            · injection hK with h1 h2
              subst h1
              refine ⟨rfl, 1 + 1, [] ++ [], ?_⟩
              rw [foldF_paren_eq]
              exact FRes.bind_done_eval rfl
            · injection hK with h1 h2
              subst h1
              rename_i heq
              refine ⟨by simpa [idemSafe] using hsx', Nx + 1, mx ++ [], ?_⟩
              rw [foldF_paren_eq, hxx]
              refine FRes.bind_done_eval ?_
              unfold parenK
              rw [heq]
        | neg x =>
            rw [foldF_neg_eq] at h
            obtain ⟨x', m1, m2, hx, hK, rfl⟩ := FRes.bind_eq_done h
            obtain ⟨hsx', Nx, mx, hxx⟩ :=
              ihF ctx x x' m1 (by simpa [idemSafe] using hsafe) hx
            have hK0 := hK
            unfold negK at hK
            obtain ⟨o, ma, mb, h1, hcont, rfl⟩ := FRes.bind_eq_done hK
            cases o with
            | some res =>
                dsimp only at hcont
                injection hcont with h3 h4
                subst h3
                exact ⟨ih1 ctx (getType x') (fun y => .neg y) x' res ma hsx'
                    (fun a ha => by simpa [idemSafe] using ha) h1,
                  applyElem1_some_self h1⟩
            | none =>
                dsimp only at hcont
                split at hcont
                · injection hcont with h3 h4
                  subst h3
                  exact ⟨rfl, 1, [], rfl⟩
                · injection hcont with h3 h4
                  subst h3
                  exact ⟨rfl, 1, [], rfl⟩
                · injection hcont with h3 h4
                  subst h3
                  refine ⟨by simpa [idemSafe] using hsx',
                    max Nx n + 1, mx ++ (ma ++ mb), ?_⟩
                  rw [foldF_neg_eq, foldF_stable hxx (le_max_left _ _)]
                  exact FRes.bind_done_eval
                    (negK_stable hK0 (le_max_right _ _))
        | add a b =>
            rw [foldF_add_eq] at h
            obtain ⟨a', m1, mr, ha, hrest, rfl⟩ := FRes.bind_eq_done h
            obtain ⟨b', m2, m3, hb, hK, rfl⟩ := FRes.bind_eq_done hrest
            obtain ⟨hsab1, hsab2⟩ : idemSafe a = true ∧ idemSafe b = true := by
              simpa [idemSafe, Bool.and_eq_true] using hsafe
            obtain ⟨hsa', Na, ma', haa⟩ := ihF ctx a a' m1 hsab1 ha
            obtain ⟨hsb', Nb, mb', hbb⟩ := ihF ctx b b' m2 hsab2 hb
            have hK0 := hK
            unfold addK at hK
            obtain ⟨o, mo, mo2, h2, hcont, rfl⟩ := FRes.bind_eq_done hK
            cases o with
            | some res =>
                dsimp only at hcont
                injection hcont with h3 h4
                subst h3
                exact ⟨ih2 ctx (getType a') (fun x y => .add x y) a' b' res mo
                    hsa' hsb'
                    (fun u v hu hv => by simp [idemSafe, hu, hv]) h2,
                  applyElem2_some_self h2⟩
            | none =>
                dsimp only at hcont
                split at hcont
                · injection hcont with h3 h4
                  subst h3
                  exact ⟨rfl, 1, [], rfl⟩
                · injection hcont with h3 h4
                  subst h3
                  exact ⟨rfl, 1, [], rfl⟩
                · injection hcont with h3 h4
                  subst h3
                  refine ⟨by simp [idemSafe, hsa', hsb'],
                    max (max Na Nb) n + 1, ma' ++ (mb' ++ (mo ++ mo2)), ?_⟩
                  rw [foldF_add_eq,
                    foldF_stable haa (le_trans (le_max_left _ _)
                      (le_max_left _ _))]
                  refine FRes.bind_done_eval ?_
                  rw [foldF_stable hbb (le_trans (le_max_right _ _)
                    (le_max_left _ _))]
                  refine FRes.bind_done_eval ?_
                  exact addK_stable hK0 (le_max_right _ _)
        | mul a b =>
            rw [foldF_mul_eq] at h
            obtain ⟨a', m1, mr, ha, hrest, rfl⟩ := FRes.bind_eq_done h
            obtain ⟨b', m2, m3, hb, hK, rfl⟩ := FRes.bind_eq_done hrest
            obtain ⟨hsab1, hsab2⟩ : idemSafe a = true ∧ idemSafe b = true := by
              simpa [idemSafe, Bool.and_eq_true] using hsafe
            obtain ⟨hsa', Na, ma', haa⟩ := ihF ctx a a' m1 hsab1 ha
            obtain ⟨hsb', Nb, mb', hbb⟩ := ihF ctx b b' m2 hsab2 hb
            have hK0 := hK
            unfold mulK at hK
            obtain ⟨o, mo, mo2, h2, hcont, rfl⟩ := FRes.bind_eq_done hK
            cases o with
            | some res =>
                dsimp only at hcont
                injection hcont with h3 h4
                subst h3
                exact ⟨ih2 ctx (getType a') (fun x y => .mul x y) a' b' res mo
                    hsa' hsb'
                    (fun u v hu hv => by simp [idemSafe, hu, hv]) h2,
                  applyElem2_some_self h2⟩
            | none =>
                dsimp only at hcont
                split at hcont
                · injection hcont with h3 h4
                  subst h3
                  exact ⟨rfl, 1, [], rfl⟩
                · injection hcont with h3 h4
                  subst h3
                  exact ⟨rfl, 1, [], rfl⟩
                · injection hcont with h3 h4
                  subst h3
                  refine ⟨by simp [idemSafe, hsa', hsb'],
                    max (max Na Nb) n + 1, ma' ++ (mb' ++ (mo ++ mo2)), ?_⟩
                  rw [foldF_mul_eq,
                    foldF_stable haa (le_trans (le_max_left _ _)
                      (le_max_left _ _))]
                  refine FRes.bind_done_eval ?_
                  rw [foldF_stable hbb (le_trans (le_max_right _ _)
                    (le_max_left _ _))]
                  refine FRes.bind_done_eval ?_
                  exact mulK_stable hK0 (le_max_right _ _)
        | extremum ord a b =>
            rw [foldF_extremum_eq] at h
            obtain ⟨a', m1, mr, ha, hrest, rfl⟩ := FRes.bind_eq_done h
            obtain ⟨b', m2, m3, hb, hK, rfl⟩ := FRes.bind_eq_done hrest
            obtain ⟨hsab1, hsab2⟩ : idemSafe a = true ∧ idemSafe b = true := by
              simpa [idemSafe, Bool.and_eq_true] using hsafe
            obtain ⟨hsa', Na, ma', haa⟩ := ihF ctx a a' m1 hsab1 ha
            obtain ⟨hsb', Nb, mb', hbb⟩ := ihF ctx b b' m2 hsab2 hb
            have hK0 := hK
            unfold extK at hK
            obtain ⟨o, mo, mo2, h2, hcont, rfl⟩ := FRes.bind_eq_done hK
            have hrebuild : ∀ {m4 : List Msg},
                extK n ctx ord a' b' = .done (.extremum ord a' b') m4 →
                ∃ N m', foldF N ctx (.extremum ord a' b') =
                  .done (.extremum ord a' b') m' := by
              intro m4 hfr
              refine ⟨max (max Na Nb) n + 1, ma' ++ (mb' ++ m4), ?_⟩
              rw [foldF_extremum_eq,
                foldF_stable haa (le_trans (le_max_left _ _)
                  (le_max_left _ _))]
              refine FRes.bind_done_eval ?_
              rw [foldF_stable hbb (le_trans (le_max_right _ _)
                (le_max_left _ _))]
              refine FRes.bind_done_eval ?_
              exact extK_stable hfr (le_max_right _ _)
            cases o with
            | some res =>
                dsimp only at hcont
                injection hcont with h3 h4
                subst h3
                exact ⟨ih2 ctx (getType a')
                    (fun x y => .extremum .gt x y) a' b' res mo hsa' hsb'
                    (fun u v hu hv => by simp [idemSafe, hu, hv]) h2,
                  applyElem2_some_self h2⟩
            | none =>
                dsimp only at hcont
                split at hcont
                · split at hcont
                  · injection hcont with h3 h4
                    subst h3
                    exact ⟨rfl, 1, [], rfl⟩
                  · injection hcont with h3 h4
                    subst h3
                    exact ⟨by simp [idemSafe, hsa', hsb'], hrebuild hK0⟩
                · injection hcont with h3 h4
                  subst h3
                  exact ⟨by simp [idemSafe, hsa', hsb'], hrebuild hK0⟩
        | conv k x =>
            rw [foldF_conv_eq] at h
            obtain ⟨x', m1, m2, hx, hK, rfl⟩ := FRes.bind_eq_done h
            obtain ⟨hsx', Nx, mx, hxx⟩ :=
              ihF ctx x x' m1 (by simpa [idemSafe] using hsafe) hx
            have hK0 := hK
            unfold convK at hK
            obtain ⟨o, ma, mb, h1, hcont, rfl⟩ := FRes.bind_eq_done hK
            cases o with
            | some res =>
                dsimp only at hcont
                injection hcont with h3 h4
                subst h3
                exact ⟨ih1 ctx ⟨.int, k⟩ (fun y => .conv k y) x' res ma hsx'
                    (fun a ha => by simpa [idemSafe] using ha) h1,
                  applyElem1_some_self h1⟩
            | none =>
                dsimp only at hcont
                split at hcont
                · injection hcont with h3 h4
                  subst h3
                  exact ⟨rfl, 1, [], rfl⟩
                · injection hcont with h3 h4
                  subst h3
                  refine ⟨by simpa [idemSafe] using hsx',
                    max Nx n + 1, mx ++ (ma ++ mb), ?_⟩
                  rw [foldF_conv_eq, foldF_stable hxx (le_max_left _ _)]
                  exact FRes.bind_done_eval
                    (convK_stable hK0 (le_max_right _ _))
        | substr base kind lo up =>
            rw [foldF_substr_eq] at h
            obtain ⟨lo', m1, mr, hlo, hrest, rfl⟩ := FRes.bind_eq_done h
            obtain ⟨up', m2, m3, hup, hK, rfl⟩ := FRes.bind_eq_done hrest
            obtain ⟨hsl, hsu⟩ : idemSafe lo = true ∧ idemSafe up = true := by
              simpa [idemSafe, Bool.and_eq_true] using hsafe
            obtain ⟨hsl', Nl, ml', hll⟩ := ihF ctx lo lo' m1 hsl hlo
            obtain ⟨hsu', Nu, mu', huu⟩ := ihF ctx up up' m2 hsu hup
            have hK0 := hK
            unfold substrK at hK
            split at hK
            · injection hK with h3 h4
              subst h3
              exact ⟨rfl, 1, [], rfl⟩
            · obtain ⟨len', mL, mI, hlen, hif, rfl⟩ := FRes.bind_eq_done hK
              split at hif
              · injection hif with h3 h4
                subst h3
                exact ⟨rfl, 1, [], rfl⟩
              · injection hif with h3 h4
                subst h3
                refine ⟨by simp [idemSafe, hsl', hsu'],
                  max (max Nl Nu) n + 1, ml' ++ (mu' ++ (mL ++ mI)), ?_⟩
                rw [foldF_substr_eq,
                  foldF_stable hll (le_trans (le_max_left _ _)
                    (le_max_left _ _))]
                refine FRes.bind_done_eval ?_
                rw [foldF_stable huu (le_trans (le_max_right _ _)
                  (le_max_left _ _))]
                refine FRes.bind_done_eval ?_
                exact substrK_stable hK0 (le_max_right _ _)
        | arrayCtor ty vals =>
            rw [foldF_arrayCtor_eq] at h
            obtain ⟨w, mw, m2, hw, hacK, rfl⟩ := FRes.bind_eq_done h
            cases w with
            | some el =>
                simp only [acK] at hacK
                injection hacK with h3 h4
                subst h3
                exact ⟨rfl, 1, [], rfl⟩
            | none =>
                simp only [acK] at hacK
                injection hacK with h3 h4
                subst h3
                refine ⟨hsafe, n + 1, mw ++ [], ?_⟩
                rw [foldF_arrayCtor_eq, hw]
                exact FRes.bind_done_eval rfl
        | funcRef name k args =>
            rw [foldF_funcRef_eq] at h
            obtain ⟨args', m1, m2, hL, hK, rfl⟩ := FRes.bind_eq_done h
            have hsafe' := hsafe
            simp only [idemSafe, Bool.and_eq_true] at hsafe'
            obtain ⟨hguard, hargsSafe⟩ := hsafe'
            obtain ⟨hsafeL', helem⟩ := ihL ctx args args' m1 hargsSafe hL
            have hlen := foldList_length args hL
            have hK0 := hK
            have hsafeR : idemSafe (.funcRef name k args') = true := by
              simp only [idemSafe]
              rw [hlen, Bool.and_eq_true]
              exact ⟨hguard, hsafeL'⟩
            have hrb : ∀ (m2' : List Msg),
                frK n ctx name k args' = .done (.funcRef name k args') m2' →
                ∃ N m', foldF N ctx (.funcRef name k args') =
                  .done (.funcRef name k args') m' := by
              intro m2' hfr
              obtain ⟨ML, mm, hLB⟩ := foldList_build ctx args' helem
              refine ⟨max ML n + 1, mm ++ m2', ?_⟩
              rw [foldF_funcRef_eq, foldList_stable hLB (le_max_left _ _)]
              exact FRes.bind_done_eval (frK_stable hfr (le_max_right _ _))
            unfold frK at hK
            by_cases hs : isShiftGroupName name = true
            · simp only [if_pos hs] at hK
              split at hK
              · rename_i x nArg
                obtain ⟨nArg', mN, mP, hNr, hPick, rfl⟩ := FRes.bind_eq_done hK
                have hsx : idemSafe x = true :=
                  (idemSafeList_iff.mp hsafeL') x (by simp)
                have hsnA : idemSafe nArg = true :=
                  (idemSafeList_iff.mp hsafeL') nArg (by simp)
                have hselfx : ∃ N m', foldF N ctx x = .done x m' :=
                  helem x (by simp)
                have hnfacts : idemSafe nArg' = true ∧
                    (∃ N m', foldF N ctx nArg' = .done nArg' m') ∧
                    ((getType nArg').cat == TyCat.int &&
                      decide ((getType nArg').kind ≠ 4)) = false := by
                  by_cases hc : ((getType nArg).cat == TyCat.int &&
                      decide ((getType nArg).kind ≠ 4)) = true
                  · rw [if_pos hc] at hNr
                    obtain ⟨hs1, N1, m1', h1⟩ := ihF ctx (.conv 4 nArg) nArg'
                      mN (by simpa [idemSafe] using hsnA) hNr
                    have hty := conv_output_type hNr
                    refine ⟨hs1, ⟨N1, m1', h1⟩, ?_⟩
                    rw [hty]
                    decide
                  · rw [if_neg hc] at hNr
                    injection hNr with h5 h6
                    subst h5
                    exact ⟨hsnA, helem nArg (by simp), by simpa using hc⟩
                obtain ⟨hsnA', hselfnA', hcond2⟩ := hnfacts
                split at hPick
                · rename_i op heqop
                  injection hPick with h3 h4
                  rcases foldElemental2_fst (.funcRef name k [x, nArg'])
                      ⟨.int, k⟩ (fun i pos =>
                        match i, pos with
                        | .int _ v, .int _ p => .int k (op k v p)
                        | _, _ => .int k 0) x nArg' with horig | ⟨c, hconst⟩
                  · rw [horig] at h3
                    subst h3
                    refine ⟨by simp [idemSafe, shift_not_size hs, hsx,
                      hsnA', idemSafeList], ?_⟩
                    have hlistself : ∀ e ∈ [x, nArg'],
                        ∃ N m', foldF N ctx e = .done e m' := by
                      intro e he
                      rcases List.mem_cons.mp he with rfl | he2
                      · exact hselfx
                      · rcases List.mem_cons.mp he2 with rfl | he3
                        · exact hselfnA'
                        · simp at he3
                    obtain ⟨ML, mm, hLB⟩ := foldList_build ctx [x, nArg']
                      hlistself
                    exact shift_rebuild hs hcond2 heqop hLB horig
                  · rw [hconst] at h3
                    subst h3
                    exact ⟨rfl, 1, [], rfl⟩
                · simp at hPick
              all_goals
                injection hK with h3 h4
              all_goals subst h3
              all_goals exact ⟨hsafeR, hrb _ hK0⟩
            · simp only [if_neg hs] at hK
              by_cases hn : (name == "size") = true
              · simp only [if_pos hn] at hK
                split at hK
                · rename_i a
                  split at hK
                  · rename_i shape heqg
                    split at hK
                    · rename_i exts heqa
                      obtain ⟨p', mp, mc, hp, hfin, rfl⟩ :=
                        FRes.bind_eq_done hK
                      injection hfin with h3 h4
                      have h18 : (args.length == 1) = true := by
                        rw [← hlen]
                        rfl
                      have hk8 : k = 8 := by
                        rw [hn, h18] at hguard
                        simpa using hguard
                      subst hk8
                      rw [convertToType_eight] at h3
                      subst h3
                      have hps : idemSafe
                          (exts.foldl (fun p e => .mul p e) (i8const 1)) =
                            true :=
                        mulFold_safe exts (i8const 1) rfl
                          (fun e he => gs_safe a shape heqg e
                            (allPresent_mem heqa e he))
                      obtain ⟨hsp', Np, mp2, hpp⟩ := ihF ctx _ p' mp hps hp
                      exact ⟨hsp', Np, mp2, hpp⟩
                    · injection hK with h3 h4
                      subst h3
                      exact ⟨hsafeR, hrb _ hK0⟩
                  · injection hK with h3 h4
                    subst h3
                    exact ⟨hsafeR, hrb _ hK0⟩
                · rename_i a dimE
                  split at hK
                  · rename_i shape heqg
                    split at hK
                    · rename_i d heqd
                      split at hK
                      · split at hK
                        · rename_i ext heqget
                          obtain ⟨r'', mc, mf, hcv, hfin, rfl⟩ :=
                            FRes.bind_eq_done hK
                          injection hfin with h3 h4
                          subst h3
                          have hmem : (some ext) ∈ shape :=
                            List.get?_mem heqget
                          obtain ⟨hsr', Nr, mr2, hrr⟩ := ihF ctx _ r'' mc
                            (idemSafe_convertToType
                              (gs_safe a shape heqg ext hmem)) hcv
                          exact ⟨hsr', Nr, mr2, hrr⟩
                        all_goals
                          injection hK with h3 h4
                        all_goals subst h3
                        all_goals exact ⟨hsafeR, hrb _ hK0⟩
                      · injection hK with h3 h4
                        subst h3
                        exact ⟨hsafeR, hrb _ hK0⟩
                    · injection hK with h3 h4
                      subst h3
                      exact ⟨hsafeR, hrb _ hK0⟩
                  · injection hK with h3 h4
                    subst h3
                    exact ⟨hsafeR, hrb _ hK0⟩
                all_goals
                  injection hK with h3 h4
                all_goals subst h3
                all_goals exact ⟨hsafeR, hrb _ hK0⟩
              · simp only [if_neg hn] at hK
                injection hK with h3 h4
                subst h3
                exact ⟨hsafeR, hrb _ hK0⟩
      · -- foldList
        intro ctx es rs m hsafe h
        cases es with
        | nil =>
            simp only [foldList] at h
            injection h with h1 h2
            subst h1
            exact ⟨rfl, by simp⟩
        | cons e es =>
            rw [foldList_cons_eq] at h
            obtain ⟨e', m1, mr, he, hrest, rfl⟩ := FRes.bind_eq_done h
            obtain ⟨es', m2, m3, hes, hfin, rfl⟩ := FRes.bind_eq_done hrest
            injection hfin with h3 h4
            subst h3
            obtain ⟨hse, hses⟩ : idemSafe e = true ∧ idemSafeList es = true := by
              simpa [idemSafeList, Bool.and_eq_true] using hsafe
            obtain ⟨hse', Ne, me', hee⟩ := ihF ctx e e' m1 hse he
            obtain ⟨hses', hmem⟩ := ihL ctx es es' m2 hses hes
            refine ⟨by simp [idemSafeList, hse', hses'], ?_⟩
            intro x hx
            rcases List.mem_cons.mp hx with rfl | hx'
            · exact ⟨Ne, me', hee⟩
            · exact hmem x hx'
      · -- zipMapF
        intro ctx f xs ys ps m hf hxs hys h p hp
        cases xs with
        | nil =>
            simp only [zipMapF] at h
            injection h with h1 h2
            subst h1
            simp at hp
        | cons x xs' =>
            cases ys with
            | nil => simp [zipMapF] at h
            | cons y ys' =>
                simp only [zipMapF] at h
                obtain ⟨p0, m1, mr, hp0, hrest, rfl⟩ := FRes.bind_eq_done h
                obtain ⟨ps', m2, m3, hps, hfin, rfl⟩ := FRes.bind_eq_done hrest
                injection hfin with h3 h4
                subst h3
                rcases List.mem_cons.mp hp with rfl | hp'
                · exact (ihF ctx (f x y) p m1
                    (hf x y (hxs x (by simp)) (hys y (by simp))) hp0).1
                · exact ihZ ctx f xs' ys' ps' m2 hf
                    (fun u hu => hxs u (by simp [hu]))
                    (fun v hv => hys v (by simp [hv])) hps p hp'
      · -- applyElem1
        intro ctx ty f x res m hx hf h
        obtain ⟨shp, xs, pushed, exo, m1, m2, m3, hg, haf, hpl, hace, hfa⟩ :=
          applyElem1_some_inv h
        have hxsafe : idemSafeList (xs.map f) = true := by
          rw [idemSafeList_iff]
          intro e he
          obtain ⟨x0, hx0, rfl⟩ := List.mem_map.mp he
          exact hf x0 (asFlat_safe x hx haf x0 hx0)
        exact (fromArrayCtor_done hfa).2.2 (ihL ctx _ pushed m1 hxsafe hpl).1
      · -- applyElem2
        intro ctx ty f l r res m hl hr hf h
        obtain ⟨pushed, exo, m2, hfa, horig⟩ := applyElem2_some_inv h
        refine (fromArrayCtor_done hfa).2.2 ?_
        rcases horig with ⟨ls, rs, m1, hfl, hfr, hz⟩ |
          ⟨ls, m1, hfl, hpl⟩ | ⟨rs, m1, hfr, hpl⟩
        · rw [idemSafeList_iff]
          exact ihZ ctx f ls rs pushed m1 hf (asFlat_safe l hl hfl)
            (asFlat_safe r hr hfr) hz
        · refine (ihL ctx _ pushed m1 ?_ hpl).1
          rw [idemSafeList_iff]
          intro e he
          obtain ⟨a0, ha0, rfl⟩ := List.mem_map.mp he
          exact hf a0 r (asFlat_safe l hl hfl a0 ha0) hr
        · refine (ihL ctx _ pushed m1 ?_ hpl).1
          rw [idemSafeList_iff]
          intro e he
          obtain ⟨b0, hb0, rfl⟩ := List.mem_map.mp he
          exact hf l b0 hl (asFlat_safe r hr hfr b0 hb0)



/-- C5: the claim asserts that folding is idempotent.  Refuted as
stated: at the concrete input `size([7,8,9])` with result kind 4, the
first fold returns an UNFOLDED `Convert<Int4>` wrapped around the
constant extent product (fold.cc line 516 folds the product but not
the conversion), and a second fold reduces that conversion to the
constant `3`, so fold(fold(e)) differs from fold(e). -/
theorem c5_idempotence_counterexample :
    foldF 30 ctx0 (.funcRef "size" 4 [i4array [7, 8, 9] [3]]) =
        .done (.conv 4 (i8const 3)) [] ∧
      foldF 30 ctx0 (.conv 4 (i8const 3)) = .done (i4const 3) [] ∧
      Expr.conv 4 (i8const 3) ≠ i4const 3 :=
  ⟨rfl, rfl, by simp [i8const, i4const]⟩

/-- C5 (amended): folding is idempotent on every expression none of
whose subexpressions is a `size` reference with DIM= absent and result
kind other than the subscript-integer kind 8: whenever such an
expression folds to `r`, folding `r` yields `r` again. -/
theorem c5_amended_idempotence {ctx : FoldingContext} {e r : Expr}
    {m : List Msg} (hsafe : idemSafe e = true) (h : FoldsTo ctx e r m) :
    ∃ m', FoldsTo ctx r r m' := by
  obtain ⟨n, hn⟩ := h
  obtain ⟨_, N, m', hN⟩ := (idem_all n).1 ctx e r m hsafe hn
  exact ⟨m', N, hN⟩

theorem c5_amended_witness :
    idemSafe (.add (i4const 1) (i4const 2)) = true ∧
      ∃ m', FoldsTo ctx0 (i4const 3) (i4const 3) m' :=
  ⟨rfl, @c5_amended_idempotence ctx0 (.add (i4const 1) (i4const 2))
    (i4const 3) [] rfl ⟨3, rfl⟩⟩

end F18
